import Mathlib

/-!
Verification of `scripts/clean_sim_results.py`.

The script is a one-shot interactive cleanup utility.  It
1. reads one line of input (whether to also delete "MATLAB files"),
2. walks the tree rooted at `../data` top-down (`os.walk`) and, for every
   subdirectory whose base name matches the glob `testcase*`
   (`fnmatch.filter(dirnames, 'testcase*')`), deletes the regular files inside
   it whose names match fixed prefix/suffix rules (unguarded `os.remove` —
   an exception aborts the whole program), and
3. if `../data/work` exists, deletes every regular file directly inside it,
   each deletion guarded by `try/except`.

Shallow embedding used here:

* A directory is a list of regular files (each with a `name`, a `removable`
  flag telling whether `os.remove` succeeds on it, and the rendered reason
  string `err` of the exception raised when it does not) together with a
  list of named subdirectories (`SubDirs`).  A real directory never contains
  two entries with the same name; that fact is the `WfDir` predicate below
  and is assumed only where a theorem needs it.
* `os.listdir` returns the name snapshot of a directory; the deletion loops
  iterate over that snapshot and re-check `os.path.isfile` against the
  current contents, exactly as the script does.
* Console output and deletions are recorded in a trace of `Event`s, in
  program order.
* `os.walk(main_folder)` visits a directory, runs the loop body on the
  yielded triple, and then descends into each subdirectory in order.  The
  loop body only deletes files inside `testcase*` children of the visited
  directory and never touches any directory entry, so the body leaves the
  directory skeleton intact and the walk sequence is the DFS preorder of the
  original tree.  `walkDir` below reproduces exactly that order: first the
  matched children of the visited directory are processed
  (`processMatchedSubs`), then the walk descends into every child
  (`walkSubs`).  Because descending into a child never reads the child's own
  top-level files (only its subdirectories), the recursion can take the
  original child and merge the two independent effects (`mergeSubs`): the
  top-level files of a child come from the processing step, everything
  deeper from the descent.  An exception aborts the run: no further
  processing and no descent happens after a failed `os.remove`.
* A missing root directory makes `os.walk` yield nothing (its default
  `onerror` ignores the `listdir` failure); since `../data/work` lies inside
  `../data`, the work directory cannot exist in that case either.  The whole
  filesystem state is therefore `Option DirT`: the contents of `../data`,
  or `none` when it does not exist.
-/

structure FileE where
  name : String
  removable : Bool
  err : String
  deriving Repr, DecidableEq

mutual

inductive DirT : Type where
  | mk : List FileE → SubDirs → DirT
  deriving Repr, DecidableEq

inductive SubDirs : Type where
  | nil : SubDirs
  | cons : String → DirT → SubDirs → SubDirs
  deriving Repr, DecidableEq

end

def DirT.filesOf : DirT → List FileE
  | .mk fs _ => fs

def DirT.subsOf : DirT → SubDirs
  | .mk _ s => s

def SubDirs.names : SubDirs → List String
  | .nil => []
  | .cons n _ r => n :: r.names

def SubDirs.lookup : SubDirs → String → Option DirT
  | .nil, _ => none
  | .cons n c r, m => if n == m then some c else r.lookup m

def SubDirs.set : SubDirs → String → DirT → SubDirs
  | .nil, _, _ => .nil
  | .cons n c r, m, d => if n == m then .cons n d r else .cons n c (r.set m d)

/-- Structural induction on the subdirectory list alone. -/
theorem SubDirs.inductionOn {motive : SubDirs → Prop} (hnil : motive .nil)
    (hcons : ∀ n c r, motive r → motive (.cons n c r)) : ∀ s, motive s
  | .nil => hnil
  | .cons n c r => hcons n c r (SubDirs.inductionOn hnil hcons r)

/-- Model of `os.listdir`: the names of all entries of a directory. -/
def listdir (d : DirT) : List String :=
  d.filesOf.map (fun f => f.name) ++ d.subsOf.names

/-- Python `s.startswith(p)` (per-character prefix test). -/
def strStartsWith (s p : String) : Bool := p.data.isPrefixOf s.data

/-- Python `s.endswith(p)` (per-character suffix test). -/
def strEndsWith (s p : String) : Bool := p.data.isSuffixOf s.data

/-- Script line 5: `main_folder = '../data'`. -/
def main_folder : String := "../data"

/-- Script line 7: `work_dir = '../data/work'`. -/
def work_dir : String := "../data/work"

/-- Model of `os.path.join(a, b)` for a relative `b` on POSIX. -/
def joinPath (a b : String) : String := a ++ "/" ++ b

/-- The filename test of `delete_files_in_directory` (script lines 14-17). -/
def isPrimaryTarget (filename : String) : Bool :=
  strStartsWith filename "log_" ||
  strEndsWith filename ".log" ||
  strStartsWith filename "output_c" ||
  strStartsWith filename "output_test_"

/-- The filename test of `delete_matlab_files_in_directory` (lines 26-27). -/
def isMatlabTarget (filename : String) : Bool :=
  strStartsWith filename "input" ||
  strStartsWith filename "output_ref"

/-- Matching `fnmatch` against the pattern `'testcase*'` (POSIX case handling):
the glob has a single trailing `*`, so it matches exactly the names that
start with `testcase`. -/
def matchesTestcase (dirname : String) : Bool := strStartsWith dirname "testcase"

/-- Which filenames the tree-walk phase deletes for a given prompt answer:
the primary rule always, the MATLAB rule only when the answer is `y`. -/
def shouldDelete (answer : String) (filename : String) : Bool :=
  isPrimaryTarget filename || (answer == "y" && isMatlabTarget filename)

/-- The observable behaviour: a printed console line, or a successful
`os.remove` of a path.  The trace lists them in program order. -/
inductive Event where
  | print (line : String)
  | remove (path : String)
  deriving Repr, DecidableEq

/-- The loop shared by `delete_files_in_directory` and
`delete_matlab_files_in_directory` (lines 11-20 and 23-30): iterate over the
`os.listdir` snapshot `ns`; for each name that is (still) a regular file and
satisfies `pred`, print the `Deleting file:` line and call `os.remove`.
`os.remove` is unguarded: on a non-removable file the function aborts with
the files deleted so far (third component `false`). -/
def deleteLoop (pred : String → Bool) (dirpath : String) :
    List String → List FileE → List FileE × List Event × Bool
  | [], files => (files, [], true)
  | n :: ns, files =>
    match files.find? (fun f => f.name == n) with
    | some f =>
      if pred n then
        if f.removable then
          let r := deleteLoop pred dirpath ns (files.eraseP (fun g => g.name == n))
          (r.1, Event.print ("Deleting file: " ++ joinPath dirpath n) ::
                Event.remove (joinPath dirpath n) :: r.2.1, r.2.2)
        else
          (files, [Event.print ("Deleting file: " ++ joinPath dirpath n)], false)
      else
        deleteLoop pred dirpath ns files
    | none => deleteLoop pred dirpath ns files

/-- Script lines 10-20. -/
def delete_files_in_directory (dirpath : String) (d : DirT) :
    DirT × List Event × Bool :=
  let r := deleteLoop isPrimaryTarget dirpath (listdir d) d.filesOf
  (DirT.mk r.1 d.subsOf, r.2.1, r.2.2)

/-- Script lines 22-30. -/
def delete_matlab_files_in_directory (dirpath : String) (d : DirT) :
    DirT × List Event × Bool :=
  let r := deleteLoop isMatlabTarget dirpath (listdir d) d.filesOf
  (DirT.mk r.1 d.subsOf, r.2.1, r.2.2)

/-- The body run for one matched directory (lines 38-41): print the
`Processing directory:` line, run the primary deletion, and, when the prompt
answer equals `"y"`, the MATLAB deletion on the resulting contents. -/
def processDir (answer : String) (dirpath : String) (d : DirT) :
    DirT × List Event × Bool :=
  let ev0 := Event.print ("Processing directory: " ++ dirpath)
  let r1 := delete_files_in_directory dirpath d
  if r1.2.2 then
    if answer == "y" then
      let r2 := delete_matlab_files_in_directory dirpath r1.1
      (r2.1, ev0 :: (r1.2.1 ++ r2.2.1), r2.2.2)
    else
      (r1.1, ev0 :: r1.2.1, true)
  else
    (r1.1, ev0 :: r1.2.1, false)

/-- The inner loop of the walk body (lines 36-41): run `processDir` on each
child whose name matches `testcase*`, in listing order, stopping at the
first uncaught exception. -/
def processMatchedSubs (answer : String) (dirpath : String) :
    SubDirs → SubDirs × List Event × Bool
  | .nil => (.nil, [], true)
  | .cons n c rest =>
    if matchesTestcase n then
      let r := processDir answer (joinPath dirpath n) c
      if r.2.2 then
        let rr := processMatchedSubs answer dirpath rest
        (.cons n r.1 rr.1, r.2.1 ++ rr.2.1, rr.2.2)
      else
        (.cons n r.1 rest, r.2.1, false)
    else
      let rr := processMatchedSubs answer dirpath rest
      (.cons n c rr.1, rr.2.1, rr.2.2)

/-- Merge the two independent effects of visiting a directory: the top-level
files of each child come from the processing step, everything deeper from
the descent into that child.  Both arguments always have the same length and
child names. -/
def mergeSubs : SubDirs → SubDirs → SubDirs
  | .cons n c1 r1, .cons _ c2 r2 =>
      .cons n (DirT.mk c1.filesOf c2.subsOf) (mergeSubs r1 r2)
  | _, _ => .nil

mutual

/-- Model of `os.walk(dirpath)` together with the loop body of lines 35-41, for the
directory with contents `d` at `dirpath`: first the body processes the
`testcase*` children of `d`, then the walk descends into every child in
order.  An uncaught exception (third component `false`) stops everything. -/
def walkDir (answer : String) (dirpath : String) : DirT → DirT × List Event × Bool
  | .mk fs subs =>
    let p := processMatchedSubs answer dirpath subs
    if p.2.2 then
      let w := walkSubs answer dirpath subs
      (DirT.mk fs (mergeSubs p.1 w.1), p.2.1 ++ w.2.1, w.2.2)
    else
      (DirT.mk fs p.1, p.2.1, false)

/-- Descend into the children in order, stopping at the first uncaught
exception. -/
def walkSubs (answer : String) (dirpath : String) : SubDirs → SubDirs × List Event × Bool
  | .nil => (.nil, [], true)
  | .cons n c rest =>
    let r := walkDir answer (joinPath dirpath n) c
    if r.2.2 then
      let rr := walkSubs answer dirpath rest
      (.cons n r.1 rr.1, r.2.1 ++ rr.2.1, rr.2.2)
    else
      (.cons n r.1 rest, r.2.1, false)

end

/-- The work-directory cleanup loop (lines 46-55): iterate over the
`os.listdir` snapshot; for each name that is (still) a regular file, call
`os.remove` inside `try/except`: on success print the `Deleted file:` line
(after the removal), on failure print the `Failed to delete` line with the
reason and continue with the next name.  Subdirectories are skipped by the
`isfile` test and never descended into. -/
def workLoop (dirpath : String) : List String → List FileE → List FileE × List Event
  | [], files => (files, [])
  | n :: ns, files =>
    match files.find? (fun f => f.name == n) with
    | some f =>
      if f.removable then
        let r := workLoop dirpath ns (files.eraseP (fun g => g.name == n))
        (r.1, Event.remove (joinPath dirpath n) ::
              Event.print ("Deleted file: '" ++ joinPath dirpath n ++ "'") :: r.2)
      else
        let r := workLoop dirpath ns files
        (r.1, Event.print ("Failed to delete file '" ++ joinPath dirpath n ++
              "'. Reason: " ++ f.err) :: r.2)
    | none => workLoop dirpath ns files

/-- The `input(...)` prompt text (line 34). -/
def promptLine : String := "Delete MATLAB files? (y/n): "

/-- The message of line 57. -/
def notFoundLine : String := "The directory " ++ work_dir ++ " does not exist."

/-- The whole program, for a prompt answer and the contents of `../data`
(`none` when `../data` does not exist): the prompt, the tree walk, and —
only when the walk raised no exception — the work-directory phase, which
cleans the `work` child of `../data` if present and otherwise prints the
not-found message.  Returns the final contents of `../data`, the trace, and
whether the program terminated normally. -/
def run (answer : String) (data : Option DirT) : Option DirT × List Event × Bool :=
  match data with
  | none => (none, [Event.print promptLine, Event.print notFoundLine], true)
  | some d =>
    let w := walkDir answer main_folder d
    if w.2.2 then
      match w.1.subsOf.lookup "work" with
      | some wd =>
        let r := workLoop work_dir (listdir wd) wd.filesOf
        (some (DirT.mk w.1.filesOf (w.1.subsOf.set "work" (DirT.mk r.1 wd.subsOf))),
         Event.print promptLine :: (w.2.1 ++ r.2), true)
      | none =>
        (some w.1, Event.print promptLine :: (w.2.1 ++ [Event.print notFoundLine]), true)
    else
      (some w.1, Event.print promptLine :: w.2.1, false)

mutual

/-- A real directory never holds two entries with the same name. -/
def WfDir : DirT → Prop
  | .mk fs subs => (fs.map (fun f => f.name) ++ subs.names).Nodup ∧ WfSubs subs

def WfSubs : SubDirs → Prop
  | .nil => True
  | .cons _ c rest => WfDir c ∧ WfSubs rest

end

mutual

/-- Every file in the tree can be removed without an exception. -/
def AllRemovableDir : DirT → Prop
  | .mk fs subs => (∀ f ∈ fs, f.removable = true) ∧ AllRemovableSubs subs

def AllRemovableSubs : SubDirs → Prop
  | .nil => True
  | .cons _ c rest => AllRemovableDir c ∧ AllRemovableSubs rest

end

/-- The directory reached from `d` by following a list of child names. -/
def dirAt : DirT → List String → Option DirT
  | d, [] => some d
  | d, n :: p =>
    match d.subsOf.lookup n with
    | some c => dirAt c p
    | none => none

/-- A trace with no successful `os.remove`: the run deleted nothing. -/
def noRemoves (evs : List Event) : Prop := ∀ q, Event.remove q ∉ evs

/-! ### List-level lemmas about the deletion loops -/

theorem beq_name_true {g : FileE} {n : String} (h : g.name = n) :
    (g.name == n) = true := by simp [h]

theorem beq_name_false {g : FileE} {n : String} (h : g.name ≠ n) :
    (g.name == n) = false := by simp [h]

theorem filter_eraseP_name (l : List FileE) (n : String) (q : FileE → Bool)
    (h : ∀ g ∈ l, g.name = n → q g = false) :
    (l.eraseP (fun g => g.name == n)).filter q = l.filter q := by
  induction l with
  | nil => rfl
  | cons g t ih =>
    by_cases hg : g.name = n
    · have hq : q g = false := h g (List.mem_cons_self _ _) hg
      simp [List.eraseP_cons, beq_name_true hg, List.filter_cons, hq]
    · have ht : (t.eraseP (fun g => g.name == n)).filter q = t.filter q :=
        ih (fun g hg' he => h g (List.mem_cons_of_mem _ hg') he)
      simp [List.eraseP_cons, beq_name_false hg, List.filter_cons, ht]

theorem not_name_mem_eraseP {l : List FileE} {n : String}
    (h : (l.map (fun f => f.name)).Nodup) :
    ∀ g ∈ l.eraseP (fun g => g.name == n), g.name ≠ n := by
  induction l with
  | nil => simp
  | cons g t ih =>
    simp only [List.map_cons, List.nodup_cons] at h
    by_cases hg : g.name = n
    · simp only [List.eraseP_cons, beq_name_true hg, cond_true]
      intro x hx hxn
      exact h.1 (by simpa [hxn, hg] using List.mem_map_of_mem (fun f => f.name) hx)
    · simp only [List.eraseP_cons, beq_name_false hg, cond_false]
      intro x hx
      rcases List.mem_cons.mp hx with hx | hx
      · simpa [hx] using hg
      · exact ih h.2 x hx

theorem map_name_eraseP_nodup {l : List FileE} {n : String}
    (h : (l.map (fun f => f.name)).Nodup) :
    ((l.eraseP (fun g => g.name == n)).map (fun f => f.name)).Nodup :=
  h.sublist ((List.eraseP_sublist l).map _)

theorem find?_name_eq_none {l : List FileE} {n : String}
    (h : l.find? (fun f => f.name == n) = none) : ∀ f ∈ l, f.name ≠ n := by
  intro f hf
  have := List.find?_eq_none.mp h f hf
  simpa [beq_iff_eq] using this

/-- Erasing the entry named `n` does not change lookups of another name. -/
theorem find?_name_eraseP_ne (l : List FileE) (n m : String) (h : m ≠ n) :
    (l.eraseP (fun g => g.name == n)).find? (fun f => f.name == m) =
      l.find? (fun f => f.name == m) := by
  induction l with
  | nil => rfl
  | cons g t ih =>
    by_cases hg : g.name = n
    · have hm : g.name ≠ m := fun hc => h (hc ▸ hg ▸ rfl)
      simp [List.eraseP_cons, beq_name_true hg, List.find?_cons, beq_name_false hm]
    · by_cases hm : g.name = m
      · simp [List.eraseP_cons, beq_name_false hg, List.find?_cons, beq_name_true hm]
      · simp [List.eraseP_cons, beq_name_false hg, List.find?_cons, beq_name_false hm, ih]

/-- When every file that the predicate matches (and the snapshot still
lists) is removable, the unguarded loop completes and keeps exactly the
files that the predicate does not match among those the snapshot lists. -/
theorem deleteLoop_filter (pred : String → Bool) (dirpath : String) :
    ∀ (ns : List String) (files : List FileE), ns.Nodup →
    (files.map (fun f => f.name)).Nodup →
    (∀ f ∈ files, pred f.name = true → f.name ∈ ns → f.removable = true) →
    (deleteLoop pred dirpath ns files).1 =
      files.filter (fun f => !(pred f.name && decide (f.name ∈ ns))) ∧
    (deleteLoop pred dirpath ns files).2.2 = true := by
  intro ns
  induction ns with
  | nil =>
    intro files _ _ _
    constructor
    · simp [deleteLoop]
    · simp [deleteLoop]
  | cons n ns ih =>
    intro files hns hfs h3
    have hns' : ns.Nodup := hns.of_cons
    have hnn : n ∉ ns := (List.nodup_cons.mp hns).1
    cases hf : files.find? (fun f => f.name == n) with
    | none =>
      have hne : ∀ f ∈ files, f.name ≠ n := find?_name_eq_none hf
      have := ih files hns' hfs
        (fun f hfm hp hm => h3 f hfm hp (List.mem_cons_of_mem _ hm))
      refine ⟨?_, ?_⟩
      · rw [show (deleteLoop pred dirpath (n :: ns) files) =
            deleteLoop pred dirpath ns files by simp [deleteLoop, hf]]
        rw [this.1]
        exact List.filter_congr (fun f hfm => by
          simp [List.mem_cons, hne f hfm])
      · rw [show (deleteLoop pred dirpath (n :: ns) files) =
            deleteLoop pred dirpath ns files by simp [deleteLoop, hf]]
        exact this.2
    | some f =>
      have hfm : f ∈ files := List.mem_of_find?_eq_some hf
      have hfn : f.name = n := by
        have := List.find?_some hf
        simpa [beq_iff_eq] using this
      by_cases hp : pred n = true
      · have hrem : f.removable = true :=
          h3 f hfm (hfn ▸ hp) (by simp [hfn])
        have hunf : deleteLoop pred dirpath (n :: ns) files =
            ((deleteLoop pred dirpath ns (files.eraseP (fun g => g.name == n))).1,
             Event.print ("Deleting file: " ++ joinPath dirpath n) ::
             Event.remove (joinPath dirpath n) ::
             (deleteLoop pred dirpath ns (files.eraseP (fun g => g.name == n))).2.1,
             (deleteLoop pred dirpath ns (files.eraseP (fun g => g.name == n))).2.2) := by
          simp [deleteLoop, hf, hp, hrem]
        have hsub : ((files.eraseP (fun g => g.name == n)).map (fun f => f.name)).Nodup :=
          map_name_eraseP_nodup hfs
        have h3' : ∀ g ∈ files.eraseP (fun g => g.name == n),
            pred g.name = true → g.name ∈ ns → g.removable = true :=
          fun g hg hp' hm =>
            h3 g ((List.eraseP_sublist files).subset hg) hp' (List.mem_cons_of_mem _ hm)
        have hihe := ih (files.eraseP (fun g => g.name == n)) hns' hsub h3'
        refine ⟨?_, ?_⟩
        · rw [hunf]
          dsimp only
          rw [hihe.1]
          have step1 :
              (files.eraseP (fun g => g.name == n)).filter
                  (fun g => !(pred g.name && decide (g.name ∈ ns))) =
              (files.eraseP (fun g => g.name == n)).filter
                  (fun g => !(pred g.name && decide (g.name ∈ n :: ns))) :=
            List.filter_congr (fun g hg => by
              have := not_name_mem_eraseP hfs g hg
              simp [List.mem_cons, this])
          rw [step1]
          exact filter_eraseP_name files n _ (fun g _ hgn => by
            simp [hgn, hp, List.mem_cons])
        · rw [hunf]
          exact hihe.2
      · have hpf : pred n = false := by simpa using hp
        have hunf : deleteLoop pred dirpath (n :: ns) files =
            deleteLoop pred dirpath ns files := by
          simp [deleteLoop, hf, hpf]
        have := ih files hns' hfs
          (fun g hgm hp' hm => h3 g hgm hp' (List.mem_cons_of_mem _ hm))
        refine ⟨?_, ?_⟩
        · rw [hunf, this.1]
          exact List.filter_congr (fun g hgm => by
            by_cases hgp : pred g.name = true
            · have hgn : g.name ≠ n := fun hc => by
                rw [hc] at hgp; exact absurd hgp (by simpa using hpf)
              simp [List.mem_cons, hgn]
            · have hgf : pred g.name = false := by simpa using hgp
              simp [hgf])
        · rw [hunf]; exact this.2

/-- A loop whose predicate matches no present file deletes nothing, prints
nothing and raises nothing. -/
theorem deleteLoop_noPred (pred : String → Bool) (dirpath : String) :
    ∀ (ns : List String) (files : List FileE),
    (∀ f ∈ files, pred f.name = false) →
    deleteLoop pred dirpath ns files = (files, [], true) := by
  intro ns
  induction ns with
  | nil => intro files _; rfl
  | cons n ns ih =>
    intro files h
    cases hf : files.find? (fun f => f.name == n) with
    | none => simp [deleteLoop, hf, ih files h]
    | some f =>
      have hfm : f ∈ files := List.mem_of_find?_eq_some hf
      have hfn : f.name = n := by
        have := List.find?_some hf
        simpa [beq_iff_eq] using this
      have hpf : pred n = false := hfn ▸ h f hfm
      simp [deleteLoop, hf, hpf, ih files h]

/-- In a directory without duplicate names, a name determines the file. -/
theorem eq_of_mem_name {l : List FileE} (h : (l.map (fun f => f.name)).Nodup)
    {f g : FileE} (hf : f ∈ l) (hg : g ∈ l) (he : f.name = g.name) : f = g := by
  induction l with
  | nil => cases hf
  | cons a t ih =>
    simp only [List.map_cons, List.nodup_cons] at h
    rcases List.mem_cons.mp hf with hf1 | hf1 <;>
      rcases List.mem_cons.mp hg with hg1 | hg1
    · rw [hf1, hg1]
    · exact absurd (by simpa [← hf1, he] using List.mem_map_of_mem (fun f => f.name) hg1) h.1
    · exact absurd (by simpa [← hg1, ← he] using List.mem_map_of_mem (fun f => f.name) hf1) h.1
    · exact ih h.2 hf1 hg1

/-- The per-file behaviour of the guarded work-directory loop: a successful
removal followed by its `Deleted file:` line, or the `Failed to delete`
report carrying the exception text. -/
def workEvents (dirpath : String) (f : FileE) : List Event :=
  if f.removable then
    [Event.remove (joinPath dirpath f.name),
     Event.print ("Deleted file: '" ++ joinPath dirpath f.name ++ "'")]
  else
    [Event.print ("Failed to delete file '" ++ joinPath dirpath f.name ++
      "'. Reason: " ++ f.err)]

/-- Characterisation of the guarded loop over an arbitrary snapshot: every
listed file is attempted independently; failures are reported and skipped,
and the loop always finishes. -/
theorem workLoop_char (dirpath : String) :
    ∀ (ns : List String) (files : List FileE), ns.Nodup →
    (files.map (fun f => f.name)).Nodup →
    workLoop dirpath ns files =
      (files.filter (fun f => !(f.removable && decide (f.name ∈ ns))),
       ns.flatMap (fun n =>
         match files.find? (fun f => f.name == n) with
         | some f => workEvents dirpath f
         | none => [])) := by
  intro ns
  induction ns with
  | nil =>
    intro files _ _
    simp [workLoop]
  | cons n ns ih =>
    intro files hns hfs
    have hns' : ns.Nodup := hns.of_cons
    have hnn : n ∉ ns := (List.nodup_cons.mp hns).1
    cases hf : files.find? (fun f => f.name == n) with
    | none =>
      have hne : ∀ f ∈ files, f.name ≠ n := find?_name_eq_none hf
      have hrec := ih files hns' hfs
      rw [show workLoop dirpath (n :: ns) files = workLoop dirpath ns files by
        simp [workLoop, hf]]
      rw [hrec]
      refine Prod.ext ?_ ?_
      · exact List.filter_congr (fun f hfm => by
          simp [List.mem_cons, hne f hfm])
      · simp [List.flatMap_cons, hf]
    | some f =>
      have hfm : f ∈ files := List.mem_of_find?_eq_some hf
      have hfn : f.name = n := by
        have := List.find?_some hf
        simpa [beq_iff_eq] using this
      by_cases hrem : f.removable = true
      · have hunf : workLoop dirpath (n :: ns) files =
            ((workLoop dirpath ns (files.eraseP (fun g => g.name == n))).1,
             Event.remove (joinPath dirpath n) ::
             Event.print ("Deleted file: '" ++ joinPath dirpath n ++ "'") ::
             (workLoop dirpath ns (files.eraseP (fun g => g.name == n))).2) := by
          simp [workLoop, hf, hrem]
        have hsub : ((files.eraseP (fun g => g.name == n)).map (fun f => f.name)).Nodup :=
          map_name_eraseP_nodup hfs
        have hrec := ih (files.eraseP (fun g => g.name == n)) hns' hsub
        rw [hunf, hrec]
        refine Prod.ext ?_ ?_
        · dsimp only
          have step1 :
              (files.eraseP (fun g => g.name == n)).filter
                  (fun g => !(g.removable && decide (g.name ∈ ns))) =
              (files.eraseP (fun g => g.name == n)).filter
                  (fun g => !(g.removable && decide (g.name ∈ n :: ns))) :=
            List.filter_congr (fun g hg => by
              have := not_name_mem_eraseP hfs g hg
              simp [List.mem_cons, this])
          rw [step1]
          exact filter_eraseP_name files n _ (fun g hgm hgn => by
            have hgf : g = f := eq_of_mem_name hfs hgm hfm (by rw [hgn, hfn])
            simp [hgn, hgf ▸ hrem, List.mem_cons])
        · dsimp only
          have hevs : ns.flatMap (fun m =>
              match (files.eraseP (fun g => g.name == n)).find? (fun f => f.name == m) with
              | some f => workEvents dirpath f
              | none => []) =
              ns.flatMap (fun m =>
              match files.find? (fun f => f.name == m) with
              | some f => workEvents dirpath f
              | none => []) := by
            exact List.flatMap_congr (fun m hm => by
              rw [find?_name_eraseP_ne files n m (fun hc => hnn (hc ▸ hm))])
          rw [hevs]
          simp [List.flatMap_cons, hf, workEvents, hrem, hfn]
      · have hrf : f.removable = false := by simpa using hrem
        have hunf : workLoop dirpath (n :: ns) files =
            ((workLoop dirpath ns files).1,
             Event.print ("Failed to delete file '" ++ joinPath dirpath n ++
               "'. Reason: " ++ f.err) ::
             (workLoop dirpath ns files).2) := by
          simp [workLoop, hf, hrf]
        have hrec := ih files hns' hfs
        rw [hunf, hrec]
        refine Prod.ext ?_ ?_
        · dsimp only
          exact List.filter_congr (fun g hgm => by
            by_cases hgn : g.name = n
            · have hgf : g = f := eq_of_mem_name hfs hgm hfm (by rw [hgn, hfn])
              simp [hgf ▸ hrf]
            · simp [List.mem_cons, hgn])
        · dsimp only
          simp [List.flatMap_cons, hf, workEvents, hrf, hfn]

/-! ### Per-directory characterisations -/

theorem DirT.eta (d : DirT) : DirT.mk d.filesOf d.subsOf = d := by
  cases d; rfl

theorem listdir_eq (d : DirT) :
    listdir d = d.filesOf.map (fun f => f.name) ++ d.subsOf.names := rfl

theorem map_name_nodup_of_listdir {d : DirT} (h : (listdir d).Nodup) :
    (d.filesOf.map (fun f => f.name)).Nodup :=
  ((List.nodup_append.mp h).1)

/-- The unguarded loop run on the listing of a directory: when every file
it targets is removable, it keeps exactly the non-matching files. -/
theorem deleteLoop_listdir (pred : String → Bool) (dirpath : String) (d : DirT)
    (hnd : (listdir d).Nodup)
    (h3 : ∀ f ∈ d.filesOf, pred f.name = true → f.removable = true) :
    (deleteLoop pred dirpath (listdir d) d.filesOf).1 =
      d.filesOf.filter (fun f => !pred f.name) ∧
    (deleteLoop pred dirpath (listdir d) d.filesOf).2.2 = true := by
  have h := deleteLoop_filter pred dirpath (listdir d) d.filesOf hnd
    (map_name_nodup_of_listdir hnd)
    (fun f hf hp _ => h3 f hf hp)
  refine ⟨?_, h.2⟩
  rw [h.1]
  exact List.filter_congr (fun f hf => by
    have : f.name ∈ listdir d :=
      List.mem_append_left _ (List.mem_map_of_mem (fun f => f.name) hf)
    simp [this])

theorem delete_files_char (dirpath : String) (d : DirT)
    (hnd : (listdir d).Nodup)
    (h3 : ∀ f ∈ d.filesOf, isPrimaryTarget f.name = true → f.removable = true) :
    (delete_files_in_directory dirpath d).1 =
      DirT.mk (d.filesOf.filter (fun f => !isPrimaryTarget f.name)) d.subsOf ∧
    (delete_files_in_directory dirpath d).2.2 = true := by
  have h := deleteLoop_listdir isPrimaryTarget dirpath d hnd h3
  exact ⟨by simp [delete_files_in_directory, h.1], by simp [delete_files_in_directory, h.2]⟩

theorem delete_matlab_char (dirpath : String) (d : DirT)
    (hnd : (listdir d).Nodup)
    (h3 : ∀ f ∈ d.filesOf, isMatlabTarget f.name = true → f.removable = true) :
    (delete_matlab_files_in_directory dirpath d).1 =
      DirT.mk (d.filesOf.filter (fun f => !isMatlabTarget f.name)) d.subsOf ∧
    (delete_matlab_files_in_directory dirpath d).2.2 = true := by
  have h := deleteLoop_listdir isMatlabTarget dirpath d hnd h3
  exact ⟨by simp [delete_matlab_files_in_directory, h.1], by simp [delete_matlab_files_in_directory, h.2]⟩

theorem dfid_subsOf (dirpath : String) (d : DirT) :
    (delete_files_in_directory dirpath d).1.subsOf = d.subsOf := by
  simp [delete_files_in_directory, DirT.subsOf]

theorem dmfid_subsOf (dirpath : String) (d : DirT) :
    (delete_matlab_files_in_directory dirpath d).1.subsOf = d.subsOf := by
  simp [delete_matlab_files_in_directory, DirT.subsOf]

/-- The two delete functions never touch the subdirectory entries. -/
theorem processDir_subsOf (answer dirpath : String) (d : DirT) :
    (processDir answer dirpath d).1.subsOf = d.subsOf := by
  by_cases h1 : (delete_files_in_directory dirpath d).2.2 = true
  · by_cases h2 : (answer == "y") = true
    · simp [processDir, h1, h2, dmfid_subsOf, dfid_subsOf]
    · have h2f : (answer == "y") = false := by simpa using h2
      simp [processDir, h1, h2f, dfid_subsOf]
  · have h1f : (delete_files_in_directory dirpath d).2.2 = false := by simpa using h1
    simp [processDir, h1f, dfid_subsOf]

theorem listdir_nodup_of_filter {d : DirT} (hnd : (listdir d).Nodup)
    (p : FileE → Bool) :
    (listdir (DirT.mk (d.filesOf.filter p) d.subsOf)).Nodup := by
  rw [listdir_eq] at hnd ⊢
  exact hnd.sublist
    (List.Sublist.append_right ((List.filter_sublist d.filesOf).map _) _)

/-- Claim core: the body run on one matched directory deletes exactly the
files whose names `shouldDelete answer` matches, provided the directory has
no duplicate names and every targeted file is removable. -/
theorem processDir_char (answer dirpath : String) (d : DirT)
    (hnd : (listdir d).Nodup)
    (h3 : ∀ f ∈ d.filesOf, shouldDelete answer f.name = true → f.removable = true) :
    (processDir answer dirpath d).1 =
      DirT.mk (d.filesOf.filter (fun f => !(shouldDelete answer f.name))) d.subsOf ∧
    (processDir answer dirpath d).2.2 = true := by
  have h3p : ∀ f ∈ d.filesOf, isPrimaryTarget f.name = true → f.removable = true :=
    fun f hf hp => h3 f hf (by simp [shouldDelete, hp])
  have h1 := delete_files_char dirpath d hnd h3p
  by_cases ha : (answer == "y") = true
  · -- the MATLAB pass runs on the result of the primary pass
    set d1 : DirT := DirT.mk (d.filesOf.filter (fun f => !isPrimaryTarget f.name)) d.subsOf with hd1
    have hnd1 : (listdir d1).Nodup := listdir_nodup_of_filter hnd _
    have h3m : ∀ f ∈ d1.filesOf, isMatlabTarget f.name = true → f.removable = true := by
      intro f hf hm
      have hfe : d1.filesOf = d.filesOf.filter (fun f => !isPrimaryTarget f.name) := by
        rw [hd1]
        rfl
      have hf' : f ∈ d.filesOf := (List.filter_sublist d.filesOf).subset (hfe ▸ hf)
      exact h3 f hf' (by simp [shouldDelete, ha, hm])
    have h2 := delete_matlab_char dirpath d1 hnd1 h3m
    have hstep : (processDir answer dirpath d).1 = (delete_matlab_files_in_directory dirpath d1).1 ∧
        (processDir answer dirpath d).2.2 = (delete_matlab_files_in_directory dirpath d1).2.2 := by
      constructor <;> simp [processDir, h1.1, h1.2, ha, hd1]
    rw [hstep.1, hstep.2, h2.1]
    constructor
    · have : (d1.filesOf.filter (fun f => !isMatlabTarget f.name)) =
          d.filesOf.filter (fun f => !(shouldDelete answer f.name)) := by
        rw [hd1]
        simp only [DirT.filesOf, List.filter_filter]
        exact List.filter_congr (fun f _ => by
          simp [shouldDelete, ha, Bool.and_comm])
      rw [this]
      simp [hd1, DirT.subsOf]
    · exact h2.2
  · have haf : (answer == "y") = false := by simpa using ha
    have hstep : (processDir answer dirpath d).1 = (delete_files_in_directory dirpath d).1 ∧
        (processDir answer dirpath d).2.2 = true := by
      constructor <;> simp [processDir, h1.2, haf]
    rw [hstep.1, h1.1]
    refine ⟨?_, hstep.2⟩
    have : (d.filesOf.filter (fun f => !isPrimaryTarget f.name)) =
        d.filesOf.filter (fun f => !(shouldDelete answer f.name)) :=
      List.filter_congr (fun f _ => by simp [shouldDelete, haf])
    rw [this]

/-- A matched directory none of whose files are targeted is visited (one
`Processing directory:` line) but left untouched. -/
theorem processDir_noTargets (answer dirpath : String) (d : DirT)
    (h : ∀ f ∈ d.filesOf, shouldDelete answer f.name = false) :
    processDir answer dirpath d =
      (d, [Event.print ("Processing directory: " ++ dirpath)], true) := by
  have hp : ∀ f ∈ d.filesOf, isPrimaryTarget f.name = false := by
    intro f hf
    have := h f hf
    simp only [shouldDelete, Bool.or_eq_false_iff] at this
    exact this.1
  have hd1 : delete_files_in_directory dirpath d =
      (DirT.mk d.filesOf d.subsOf, [], true) := by
    simp [delete_files_in_directory,
      deleteLoop_noPred isPrimaryTarget dirpath (listdir d) d.filesOf hp]
  rw [DirT.eta] at hd1
  by_cases ha : (answer == "y") = true
  · have hm : ∀ f ∈ d.filesOf, isMatlabTarget f.name = false := by
      intro f hf
      have := h f hf
      simp only [shouldDelete, ha, Bool.true_and, Bool.or_eq_false_iff] at this
      exact this.2
    have hd2 : delete_matlab_files_in_directory dirpath d =
        (DirT.mk d.filesOf d.subsOf, [], true) := by
      simp [delete_matlab_files_in_directory,
        deleteLoop_noPred isMatlabTarget dirpath (listdir d) d.filesOf hm]
    rw [DirT.eta] at hd2
    simp [processDir, hd1, hd2, ha]
  · have haf : (answer == "y") = false := by simpa using ha
    simp [processDir, hd1, haf]

/-! ### Shape of the tree after the walk -/

/-- The walk never touches the files of the directory it starts from: only
`testcase*` children of visited directories are processed, never the root
itself. -/
theorem walkDir_filesOf (a q : String) (d : DirT) :
    (walkDir a q d).1.filesOf = d.filesOf := by
  cases d with
  | mk fs subs =>
    by_cases hok : (processMatchedSubs a q subs).2.2 = true
    · simp [walkDir, hok, DirT.filesOf]
    · have hf : (processMatchedSubs a q subs).2.2 = false := by simpa using hok
      simp [walkDir, hf, DirT.filesOf]

theorem names_eq_nil {s : SubDirs} (h : s.names = []) : s = .nil := by
  cases s with
  | nil => rfl
  | cons n c r => simp [SubDirs.names] at h

theorem lookup_eq_none_iff (s : SubDirs) (m : String) :
    s.lookup m = none ↔ m ∉ s.names := by
  induction s using SubDirs.inductionOn with
  | hnil => simp [SubDirs.lookup, SubDirs.names]
  | hcons n c r ih =>
    by_cases hn : n = m
    · simp [SubDirs.lookup, SubDirs.names, hn]
    · have hb : (n == m) = false := by simpa using hn
      simp [SubDirs.lookup, SubDirs.names, hb, ih]
      exact fun _ hmn => hn hmn.symm

theorem dirAt_congr_subs {c c' : DirT} (h : c.subsOf = c'.subsOf)
    (x : String) (rest : List String) :
    dirAt c (x :: rest) = dirAt c' (x :: rest) := by
  simp [dirAt, h]

theorem processMatchedSubs_names (a q : String) : ∀ s : SubDirs,
    (processMatchedSubs a q s).1.names = s.names := by
  intro s
  induction s using SubDirs.inductionOn with
  | hnil => rfl
  | hcons n c rest ih =>
    by_cases hm : matchesTestcase n = true
    · by_cases hok : (processDir a (joinPath q n) c).2.2 = true
      · simp [processMatchedSubs, hm, hok, SubDirs.names, ih]
      · have hf : (processDir a (joinPath q n) c).2.2 = false := by simpa using hok
        simp [processMatchedSubs, hm, hf, SubDirs.names]
    · have hf : matchesTestcase n = false := by simpa using hm
      simp [processMatchedSubs, hf, SubDirs.names, ih]

theorem walkSubs_names (a q : String) : ∀ s : SubDirs,
    (walkSubs a q s).1.names = s.names := by
  intro s
  induction s using SubDirs.inductionOn with
  | hnil => rfl
  | hcons n c rest ih =>
    by_cases hok : (walkDir a (joinPath q n) c).2.2 = true
    · simp [walkSubs, hok, SubDirs.names, ih]
    · have hf : (walkDir a (joinPath q n) c).2.2 = false := by simpa using hok
      simp [walkSubs, hf, SubDirs.names]

theorem lookup_mergeSubs : ∀ (s1 s2 : SubDirs), s1.names = s2.names →
    ∀ m : String, (mergeSubs s1 s2).lookup m =
      match s1.lookup m, s2.lookup m with
      | some c1, some c2 => some (DirT.mk c1.filesOf c2.subsOf)
      | _, _ => none := by
  intro s1
  induction s1 using SubDirs.inductionOn with
  | hnil =>
    intro s2 h m
    have : s2 = .nil := names_eq_nil (by simpa [SubDirs.names] using h.symm)
    subst this
    rfl
  | hcons n c1 r1 ih =>
    intro s2 h m
    cases s2 with
    | nil => simp [SubDirs.names] at h
    | cons n2 c2 r2 =>
      simp only [SubDirs.names, List.cons.injEq] at h
      obtain ⟨rfl, htl⟩ := h
      by_cases hn : n = m
      · simp [mergeSubs, SubDirs.lookup, hn]
      · have hf : (n == m) = false := by simpa using hn
        simp [mergeSubs, SubDirs.lookup, hf, ih r2 htl m]

/-- A child whose name does not match `testcase*` is not touched when the
walk body processes the matched children. -/
theorem processMatchedSubs_lookup_unmatched (a q : String) :
    ∀ (s : SubDirs) (m : String), matchesTestcase m = false →
    (processMatchedSubs a q s).1.lookup m = s.lookup m := by
  intro s
  induction s using SubDirs.inductionOn with
  | hnil => intro m _; rfl
  | hcons n c rest ih =>
    intro m hum
    by_cases hn : n = m
    · have hnm : matchesTestcase n = false := by rw [hn]; exact hum
      simp [processMatchedSubs, hn, hum, SubDirs.lookup]
    · have hf : (n == m) = false := by simpa using hn
      by_cases hm : matchesTestcase n = true
      · by_cases hok : (processDir a (joinPath q n) c).2.2 = true
        · simp [processMatchedSubs, hm, hok, SubDirs.lookup, hf, ih m hum]
        · have hokf : (processDir a (joinPath q n) c).2.2 = false := by simpa using hok
          simp [processMatchedSubs, hm, hokf, SubDirs.lookup, hf]
      · have hmf : matchesTestcase n = false := by simpa using hm
        simp [processMatchedSubs, hmf, SubDirs.lookup, hf, ih m hum]

/-- Processing the matched children only replaces their top-level files:
every child keeps its subdirectory entries. -/
theorem processMatchedSubs_lookup_subsOf (a q : String) :
    ∀ (s : SubDirs) (m : String),
    ((processMatchedSubs a q s).1.lookup m).map DirT.subsOf =
      (s.lookup m).map DirT.subsOf := by
  intro s
  induction s using SubDirs.inductionOn with
  | hnil => intro m; rfl
  | hcons n c rest ih =>
    intro m
    by_cases hn : (n == m) = true
    · by_cases hm : matchesTestcase n = true
      · by_cases hok : (processDir a (joinPath q n) c).2.2 = true
        · simp [processMatchedSubs, hm, hok, SubDirs.lookup, hn, processDir_subsOf]
        · have hokf : (processDir a (joinPath q n) c).2.2 = false := by simpa using hok
          simp [processMatchedSubs, hm, hokf, SubDirs.lookup, hn, processDir_subsOf]
      · have hmf : matchesTestcase n = false := by simpa using hm
        simp [processMatchedSubs, hmf, SubDirs.lookup, hn]
    · have hf : (n == m) = false := by simpa using hn
      by_cases hm : matchesTestcase n = true
      · by_cases hok : (processDir a (joinPath q n) c).2.2 = true
        · simp [processMatchedSubs, hm, hok, SubDirs.lookup, hf, ih m]
        · have hokf : (processDir a (joinPath q n) c).2.2 = false := by simpa using hok
          simp [processMatchedSubs, hm, hokf, SubDirs.lookup, hf]
      · have hmf : matchesTestcase n = false := by simpa using hm
        simp [processMatchedSubs, hmf, SubDirs.lookup, hf, ih m]

/-- The files of the directory reached by a path. -/
def filesAt (d : DirT) (p : List String) : Option (List FileE) :=
  (dirAt d p).map DirT.filesOf

theorem dirAt_single (d : DirT) (x : String) :
    dirAt d [x] = d.subsOf.lookup x := by
  cases h : d.subsOf.lookup x <;> simp [dirAt, h]

theorem lookup_isSome_congr {s1 s2 : SubDirs} (h : s1.names = s2.names)
    {m : String} (h1 : s1.lookup m = none) : s2.lookup m = none := by
  rw [lookup_eq_none_iff] at h1 ⊢
  rw [← h]
  exact h1

theorem dirAt_merge_deep (s1 s2 : SubDirs) (h : s1.names = s2.names)
    (A B : List FileE) (x y : String) (rest : List String) :
    dirAt (DirT.mk A (mergeSubs s1 s2)) (x :: y :: rest) =
      dirAt (DirT.mk B s2) (x :: y :: rest) := by
  have hm := lookup_mergeSubs s1 s2 h x
  cases h1 : s1.lookup x with
  | none =>
    have h2 : s2.lookup x = none := lookup_isSome_congr h h1
    rw [h1, h2] at hm
    simp [dirAt, DirT.subsOf, hm, h2]
  | some c1 =>
    cases h2 : s2.lookup x with
    | none =>
      have h1' : s1.lookup x = none := lookup_isSome_congr h.symm h2
      rw [h1'] at h1; cases h1
    | some c2 =>
      rw [h1, h2] at hm
      have e1 : dirAt (DirT.mk A (mergeSubs s1 s2)) (x :: y :: rest) =
          dirAt (DirT.mk c1.filesOf c2.subsOf) (y :: rest) := by
        simp [dirAt, DirT.subsOf, hm]
      have e2 : dirAt (DirT.mk B s2) (x :: y :: rest) = dirAt c2 (y :: rest) := by
        simp [dirAt, DirT.subsOf, h2]
      rw [e1, e2]
      exact dirAt_congr_subs rfl y rest

theorem dirAt_merge_top (s1 s2 : SubDirs) (h : s1.names = s2.names)
    (A : List FileE) (x : String) :
    (dirAt (DirT.mk A (mergeSubs s1 s2)) [x]).map DirT.filesOf =
      (s1.lookup x).map DirT.filesOf := by
  rw [dirAt_single]
  have hm := lookup_mergeSubs s1 s2 h x
  cases h1 : s1.lookup x with
  | none =>
    have h2 : s2.lookup x = none := lookup_isSome_congr h h1
    rw [h1, h2] at hm
    simp [DirT.subsOf, hm]
  | some c1 =>
    cases h2 : s2.lookup x with
    | none =>
      have h1' : s1.lookup x = none := lookup_isSome_congr h.symm h2
      rw [h1'] at h1; cases h1
    | some c2 =>
      rw [h1, h2] at hm
      simp [DirT.subsOf, hm, DirT.filesOf]

theorem filesAt_single_lookup (d : DirT) (x : String) :
    filesAt d [x] = (d.subsOf.lookup x).map DirT.filesOf := by
  rw [filesAt, dirAt_single]

theorem dirAt_of_subsOf_map_eq {s1 s2 : SubDirs}
    (h : ∀ m, (s1.lookup m).map DirT.subsOf = (s2.lookup m).map DirT.subsOf)
    (A B : List FileE) (x y : String) (rest : List String) :
    dirAt (DirT.mk A s1) (x :: y :: rest) = dirAt (DirT.mk B s2) (x :: y :: rest) := by
  have hx := h x
  cases h1 : s1.lookup x with
  | none =>
    rw [h1] at hx
    have h2 : s2.lookup x = none := by
      cases h2 : s2.lookup x with
      | none => rfl
      | some c => rw [h2] at hx; cases hx
    simp [dirAt, DirT.subsOf, h1, h2]
  | some c1 =>
    rw [h1] at hx
    cases h2 : s2.lookup x with
    | none => rw [h2] at hx; cases hx
    | some c2 =>
      rw [h2] at hx
      have hsub : c1.subsOf = c2.subsOf := by
        simpa using hx
      have e1 : dirAt (DirT.mk A s1) (x :: y :: rest) = dirAt c1 (y :: rest) := by
        simp [dirAt, DirT.subsOf, h1]
      have e2 : dirAt (DirT.mk B s2) (x :: y :: rest) = dirAt c2 (y :: rest) := by
        simp [dirAt, DirT.subsOf, h2]
      rw [e1, e2]
      exact dirAt_congr_subs hsub y rest

mutual

/-- Tree-walk phase, preservation: the files of any directory reached by a
path whose last component does not match `testcase*` are exactly the
original ones — whether or not the walk aborted early. -/
theorem walkDir_files_unmatched (a : String) :
    ∀ (d : DirT) (q : String) (p : List String) (n : String),
    matchesTestcase n = false →
    filesAt (walkDir a q d).1 (p ++ [n]) = filesAt d (p ++ [n])
  | .mk fs subs => by
    intro q p n hun
    by_cases hok : (processMatchedSubs a q subs).2.2 = true
    · have hw : (walkDir a q (DirT.mk fs subs)).1 =
          DirT.mk fs (mergeSubs (processMatchedSubs a q subs).1 (walkSubs a q subs).1) := by
        simp [walkDir, hok]
      rw [hw]
      have hn1 : (processMatchedSubs a q subs).1.names = (walkSubs a q subs).1.names := by
        rw [processMatchedSubs_names, walkSubs_names]
      cases p with
      | nil =>
        rw [List.nil_append, filesAt, dirAt_merge_top _ _ hn1 fs n,
          processMatchedSubs_lookup_unmatched a q subs n hun, filesAt_single_lookup]
        rfl
      | cons m p' =>
        cases hpe : p' ++ [n] with
        | nil => exact absurd hpe (by simp)
        | cons y rest =>
          rw [List.cons_append, hpe]
          rw [filesAt, filesAt, dirAt_merge_deep _ _ hn1 fs ([]) m y rest]
          have hrec := walkSubs_files_unmatched a subs q (m :: p') n hun
          rw [List.cons_append, hpe] at hrec
          rw [filesAt, filesAt] at hrec
          rw [hrec]
          rw [@dirAt_congr_subs (DirT.mk ([]:List FileE) subs)
            (DirT.mk fs subs) rfl m (y :: rest)]
    · have hokf : (processMatchedSubs a q subs).2.2 = false := by simpa using hok
      have hw : (walkDir a q (DirT.mk fs subs)).1 =
          DirT.mk fs (processMatchedSubs a q subs).1 := by
        simp [walkDir, hokf]
      rw [hw]
      cases p with
      | nil =>
        rw [List.nil_append, filesAt_single_lookup, filesAt_single_lookup]
        show ((processMatchedSubs a q subs).1.lookup n).map _ = (subs.lookup n).map _
        rw [processMatchedSubs_lookup_unmatched a q subs n hun]
      | cons m p' =>
        cases hpe : p' ++ [n] with
        | nil => exact absurd hpe (by simp)
        | cons y rest =>
          rw [List.cons_append, hpe]
          rw [filesAt, filesAt,
            dirAt_of_subsOf_map_eq (processMatchedSubs_lookup_subsOf a q subs) fs fs m y rest]

/-- As above, but starting from a list of children (the contents of an
already-visited directory). -/
theorem walkSubs_files_unmatched (a : String) :
    ∀ (s : SubDirs) (q : String) (p : List String) (n : String),
    matchesTestcase n = false →
    filesAt (DirT.mk [] (walkSubs a q s).1) (p ++ [n]) =
      filesAt (DirT.mk [] s) (p ++ [n])
  | .nil => by
    intro q p n hun
    rw [show (walkSubs a q SubDirs.nil).1 = SubDirs.nil by simp [walkSubs]]
  | .cons n₀ c rest => by
    intro q p n hun
    by_cases hok : (walkDir a (joinPath q n₀) c).2.2 = true
    · have hw : (walkSubs a q (SubDirs.cons n₀ c rest)).1 =
          SubDirs.cons n₀ (walkDir a (joinPath q n₀) c).1 (walkSubs a q rest).1 := by
        simp [walkSubs, hok]
      rw [hw]
      cases p with
      | nil =>
        rw [List.nil_append, filesAt_single_lookup, filesAt_single_lookup]
        by_cases hb : (n₀ == n) = true
        · simp [SubDirs.lookup, DirT.subsOf, hb, walkDir_filesOf]
        · have hbf : (n₀ == n) = false := by simpa using hb
          have hrec := walkSubs_files_unmatched a rest q [] n hun
          rw [List.nil_append, filesAt_single_lookup, filesAt_single_lookup] at hrec
          simp only [SubDirs.lookup, DirT.subsOf, hbf] at *
          exact hrec
      | cons m p' =>
        cases hpe : p' ++ [n] with
        | nil => exact absurd hpe (by simp)
        | cons y rest' =>
          rw [List.cons_append, hpe, filesAt, filesAt]
          by_cases hb : (n₀ == m) = true
          · have e1 : dirAt (DirT.mk ([]:List FileE)
                (SubDirs.cons n₀ (walkDir a (joinPath q n₀) c).1 (walkSubs a q rest).1))
                (m :: y :: rest') = dirAt (walkDir a (joinPath q n₀) c).1 (y :: rest') := by
              simp [dirAt, DirT.subsOf, SubDirs.lookup, hb]
            have e2 : dirAt (DirT.mk ([]:List FileE) (SubDirs.cons n₀ c rest))
                (m :: y :: rest') = dirAt c (y :: rest') := by
              simp [dirAt, DirT.subsOf, SubDirs.lookup, hb]
            rw [e1, e2]
            have hrec := walkDir_files_unmatched a c (joinPath q n₀) p' n hun
            rw [hpe] at hrec
            rw [filesAt, filesAt] at hrec
            exact hrec
          · have hbf : (n₀ == m) = false := by simpa using hb
            have e1 : dirAt (DirT.mk ([]:List FileE)
                (SubDirs.cons n₀ (walkDir a (joinPath q n₀) c).1 (walkSubs a q rest).1))
                (m :: y :: rest') =
                dirAt (DirT.mk ([]:List FileE) (walkSubs a q rest).1) (m :: y :: rest') := by
              simp [dirAt, DirT.subsOf, SubDirs.lookup, hbf]
            have e2 : dirAt (DirT.mk ([]:List FileE) (SubDirs.cons n₀ c rest))
                (m :: y :: rest') =
                dirAt (DirT.mk ([]:List FileE) rest) (m :: y :: rest') := by
              simp [dirAt, DirT.subsOf, SubDirs.lookup, hbf]
            rw [e1, e2]
            have hrec := walkSubs_files_unmatched a rest q (m :: p') n hun
            rw [List.cons_append, hpe] at hrec
            rw [filesAt, filesAt] at hrec
            exact hrec
    · have hokf : (walkDir a (joinPath q n₀) c).2.2 = false := by simpa using hok
      have hw : (walkSubs a q (SubDirs.cons n₀ c rest)).1 =
          SubDirs.cons n₀ (walkDir a (joinPath q n₀) c).1 rest := by
        simp [walkSubs, hokf]
      rw [hw]
      cases p with
      | nil =>
        rw [List.nil_append, filesAt_single_lookup, filesAt_single_lookup]
        by_cases hb : (n₀ == n) = true
        · simp [SubDirs.lookup, DirT.subsOf, hb, walkDir_filesOf]
        · have hbf : (n₀ == n) = false := by simpa using hb
          simp [SubDirs.lookup, DirT.subsOf, hbf]
      | cons m p' =>
        cases hpe : p' ++ [n] with
        | nil => exact absurd hpe (by simp)
        | cons y rest' =>
          rw [List.cons_append, hpe, filesAt, filesAt]
          by_cases hb : (n₀ == m) = true
          · have e1 : dirAt (DirT.mk ([]:List FileE)
                (SubDirs.cons n₀ (walkDir a (joinPath q n₀) c).1 rest))
                (m :: y :: rest') = dirAt (walkDir a (joinPath q n₀) c).1 (y :: rest') := by
              simp [dirAt, DirT.subsOf, SubDirs.lookup, hb]
            have e2 : dirAt (DirT.mk ([]:List FileE) (SubDirs.cons n₀ c rest))
                (m :: y :: rest') = dirAt c (y :: rest') := by
              simp [dirAt, DirT.subsOf, SubDirs.lookup, hb]
            rw [e1, e2]
            have hrec := walkDir_files_unmatched a c (joinPath q n₀) p' n hun
            rw [hpe] at hrec
            rw [filesAt, filesAt] at hrec
            exact hrec
          · have hbf : (n₀ == m) = false := by simpa using hb
            have e1 : dirAt (DirT.mk ([]:List FileE)
                (SubDirs.cons n₀ (walkDir a (joinPath q n₀) c).1 rest))
                (m :: y :: rest') =
                dirAt (DirT.mk ([]:List FileE) rest) (m :: y :: rest') := by
              simp [dirAt, DirT.subsOf, SubDirs.lookup, hbf]
            have e2 : dirAt (DirT.mk ([]:List FileE) (SubDirs.cons n₀ c rest))
                (m :: y :: rest') =
                dirAt (DirT.mk ([]:List FileE) rest) (m :: y :: rest') := by
              simp [dirAt, DirT.subsOf, SubDirs.lookup, hbf]
            rw [e1, e2]

end

mutual

/-- The intended effect of the tree-walk phase: inside every `testcase*`
child (at any depth) keep exactly the files `shouldDelete` does not match;
touch nothing else. -/
def cleanDir (a : String) : DirT → DirT
  | .mk fs subs => .mk fs (cleanSubs a subs)

def cleanSubs (a : String) : SubDirs → SubDirs
  | .nil => .nil
  | .cons n c rest =>
    .cons n (DirT.mk (if matchesTestcase n then
        c.filesOf.filter (fun f => !(shouldDelete a f.name)) else c.filesOf)
      (cleanDir a c).subsOf) (cleanSubs a rest)

end

/-- Effect of processing the matched children only (top-level files). -/
def pmCleanSubs (a : String) : SubDirs → SubDirs
  | .nil => .nil
  | .cons n c rest =>
    .cons n (if matchesTestcase n then
        DirT.mk (c.filesOf.filter (fun f => !(shouldDelete a f.name))) c.subsOf else c)
      (pmCleanSubs a rest)

/-- Effect of descending into every child. -/
def wCleanSubs (a : String) : SubDirs → SubDirs
  | .nil => .nil
  | .cons n c rest => .cons n (cleanDir a c) (wCleanSubs a rest)

theorem cleanDir_subsOf (a : String) (d : DirT) :
    (cleanDir a d).subsOf = cleanSubs a d.subsOf := by
  cases d; rfl

theorem cleanDir_filesOf (a : String) (d : DirT) :
    (cleanDir a d).filesOf = d.filesOf := by
  cases d; rfl

theorem mergeSubs_clean (a : String) : ∀ s : SubDirs,
    mergeSubs (pmCleanSubs a s) (wCleanSubs a s) = cleanSubs a s := by
  intro s
  induction s using SubDirs.inductionOn with
  | hnil => rfl
  | hcons n c r ih =>
    by_cases hm : matchesTestcase n = true
    · simp [mergeSubs, pmCleanSubs, wCleanSubs, cleanSubs, hm, ih, DirT.filesOf]
    · have hmf : matchesTestcase n = false := by simpa using hm
      simp [mergeSubs, pmCleanSubs, wCleanSubs, cleanSubs, hmf, ih, DirT.filesOf]

theorem WfDir_parts {fs : List FileE} {subs : SubDirs} (h : WfDir (.mk fs subs)) :
    (listdir (DirT.mk fs subs)).Nodup ∧ WfSubs subs := by
  simpa [WfDir, listdir_eq, DirT.filesOf, DirT.subsOf] using h

theorem WfSubs_parts {n : String} {c : DirT} {rest : SubDirs}
    (h : WfSubs (.cons n c rest)) : WfDir c ∧ WfSubs rest := by
  simpa [WfSubs] using h

theorem AllRemovableDir_parts {fs : List FileE} {subs : SubDirs}
    (h : AllRemovableDir (.mk fs subs)) :
    (∀ f ∈ fs, f.removable = true) ∧ AllRemovableSubs subs := by
  simpa [AllRemovableDir] using h

theorem AllRemovableSubs_parts {n : String} {c : DirT} {rest : SubDirs}
    (h : AllRemovableSubs (.cons n c rest)) :
    AllRemovableDir c ∧ AllRemovableSubs rest := by
  simpa [AllRemovableSubs] using h

theorem AllRemovableDir_files {d : DirT} (h : AllRemovableDir d) :
    ∀ f ∈ d.filesOf, f.removable = true := by
  cases d with
  | mk fs subs => exact (AllRemovableDir_parts h).1

theorem WfDir_listdir {d : DirT} (h : WfDir d) : (listdir d).Nodup := by
  cases d with
  | mk fs subs => exact (WfDir_parts h).1

/-- Processing the matched children of a well-formed, fully removable list
of children succeeds and filters exactly the targeted files of the matched
children. -/
theorem processMatchedSubs_char (a q : String) : ∀ s : SubDirs,
    WfSubs s → AllRemovableSubs s →
    (processMatchedSubs a q s).1 = pmCleanSubs a s ∧
    (processMatchedSubs a q s).2.2 = true := by
  intro s
  induction s using SubDirs.inductionOn with
  | hnil => intro _ _; constructor <;> simp [processMatchedSubs, pmCleanSubs]
  | hcons n c r ih =>
    intro hw ha
    obtain ⟨hwc, hwr⟩ := WfSubs_parts hw
    obtain ⟨hac, har⟩ := AllRemovableSubs_parts ha
    have hrec := ih hwr har
    by_cases hm : matchesTestcase n = true
    · have hchar := processDir_char a (joinPath q n) c (WfDir_listdir hwc)
        (fun f hf _ => AllRemovableDir_files hac f hf)
      constructor
      · simp [processMatchedSubs, hm, hchar.2, hchar.1, hrec.1, pmCleanSubs]
      · simp [processMatchedSubs, hm, hchar.2, hrec.2]
    · have hmf : matchesTestcase n = false := by simpa using hm
      constructor
      · simp [processMatchedSubs, hmf, pmCleanSubs, hrec.1]
      · simp [processMatchedSubs, hmf, hrec.2]

mutual

/-- With no duplicate names and every file removable, the walk terminates
normally and produces exactly the cleaned tree. -/
theorem walkDir_char (a : String) : ∀ (d : DirT) (q : String),
    WfDir d → AllRemovableDir d →
    (walkDir a q d).1 = cleanDir a d ∧ (walkDir a q d).2.2 = true
  | .mk fs subs => by
    intro q hw ha
    have hws : WfSubs subs := (WfDir_parts hw).2
    have has : AllRemovableSubs subs := (AllRemovableDir_parts ha).2
    have hpm := processMatchedSubs_char a q subs hws has
    have hwc := walkSubs_char a subs q hws has
    constructor
    · rw [show (walkDir a q (DirT.mk fs subs)).1 =
          DirT.mk fs (mergeSubs (processMatchedSubs a q subs).1 (walkSubs a q subs).1) by
        simp [walkDir, hpm.2]]
      rw [hpm.1, hwc.1, mergeSubs_clean]
      rfl
    · simp [walkDir, hpm.2, hwc.2]

theorem walkSubs_char (a : String) : ∀ (s : SubDirs) (q : String),
    WfSubs s → AllRemovableSubs s →
    (walkSubs a q s).1 = wCleanSubs a s ∧ (walkSubs a q s).2.2 = true
  | .nil => by
    intro q _ _
    constructor <;> simp [walkSubs, wCleanSubs]
  | .cons n c rest => by
    intro q hw ha
    obtain ⟨hwc, hwr⟩ := WfSubs_parts hw
    obtain ⟨hac, har⟩ := AllRemovableSubs_parts ha
    have hchild := walkDir_char a c (joinPath q n) hwc hac
    have hrest := walkSubs_char a rest q hwr har
    constructor
    · simp [walkSubs, hchild.2, hchild.1, hrest.1, wCleanSubs]
    · simp [walkSubs, hchild.2, hrest.2]

end

mutual

/-- No `testcase*` child anywhere in the tree still holds a file the
tree-walk phase would target. -/
def NoTargetsDir (a : String) : DirT → Prop
  | .mk _ subs => NoTargetsSubs a subs

def NoTargetsSubs (a : String) : SubDirs → Prop
  | .nil => True
  | .cons n c rest =>
    (matchesTestcase n = true → ∀ f ∈ c.filesOf, shouldDelete a f.name = false) ∧
    NoTargetsDir a c ∧ NoTargetsSubs a rest

end

theorem NoTargetsDir_def (a : String) (fs : List FileE) (subs : SubDirs) :
    NoTargetsDir a (.mk fs subs) ↔ NoTargetsSubs a subs := by
  simp [NoTargetsDir]

theorem NoTargetsSubs_parts {a n} {c : DirT} {rest : SubDirs}
    (h : NoTargetsSubs a (.cons n c rest)) :
    (matchesTestcase n = true → ∀ f ∈ c.filesOf, shouldDelete a f.name = false) ∧
    NoTargetsDir a c ∧ NoTargetsSubs a rest := by
  simpa [NoTargetsSubs] using h

theorem mergeSubs_self : ∀ s : SubDirs, mergeSubs s s = s := by
  intro s
  induction s using SubDirs.inductionOn with
  | hnil => rfl
  | hcons n c r ih => simp [mergeSubs, ih, DirT.eta]

theorem noRemoves_nil : noRemoves [] := by
  intro q h; cases h

theorem noRemoves_append {e1 e2 : List Event} (h1 : noRemoves e1)
    (h2 : noRemoves e2) : noRemoves (e1 ++ e2) := by
  intro q h
  rcases List.mem_append.mp h with h | h
  · exact h1 q h
  · exact h2 q h

theorem noRemoves_cons_print {s : String} {evs : List Event}
    (h : noRemoves evs) : noRemoves (Event.print s :: evs) := by
  intro q hq
  rcases List.mem_cons.mp hq with hq | hq
  · cases hq
  · exact h q hq

theorem noRemoves_single_print (s : String) : noRemoves [Event.print s] :=
  noRemoves_cons_print noRemoves_nil

/-- If no matched child holds a targeted file, the walk body changes
nothing, deletes nothing and succeeds. -/
theorem processMatchedSubs_noTargets (a q : String) : ∀ s : SubDirs,
    NoTargetsSubs a s →
    (processMatchedSubs a q s).1 = s ∧
    (processMatchedSubs a q s).2.2 = true ∧
    noRemoves (processMatchedSubs a q s).2.1 := by
  intro s
  induction s using SubDirs.inductionOn with
  | hnil =>
    intro _
    refine ⟨rfl, rfl, ?_⟩
    simp only [processMatchedSubs]
    exact noRemoves_nil
  | hcons n c r ih =>
    intro h
    obtain ⟨hm, hc, hr⟩ := NoTargetsSubs_parts h
    have hrec := ih hr
    by_cases hmm : matchesTestcase n = true
    · have hpd := processDir_noTargets a (joinPath q n) c (hm hmm)
      refine ⟨?_, ?_, ?_⟩
      · simp [processMatchedSubs, hmm, hpd, hrec.1]
      · simp [processMatchedSubs, hmm, hpd, hrec.2.1]
      · have : (processMatchedSubs a q (SubDirs.cons n c r)).2.1 =
            [Event.print ("Processing directory: " ++ joinPath q n)] ++
            (processMatchedSubs a q r).2.1 := by
          simp [processMatchedSubs, hmm, hpd]
        rw [this]
        exact noRemoves_append (noRemoves_single_print _) hrec.2.2
    · have hmf : matchesTestcase n = false := by simpa using hmm
      refine ⟨?_, ?_, ?_⟩
      · simp [processMatchedSubs, hmf, hrec.1]
      · simp [processMatchedSubs, hmf, hrec.2.1]
      · have : (processMatchedSubs a q (SubDirs.cons n c r)).2.1 =
            (processMatchedSubs a q r).2.1 := by
          simp [processMatchedSubs, hmf]
        rw [this]
        exact hrec.2.2

mutual

/-- On a tree with no remaining targets the whole walk is the identity:
it only prints, removes nothing, and terminates normally. -/
theorem walkDir_noTargets (a : String) : ∀ (d : DirT) (q : String),
    NoTargetsDir a d →
    (walkDir a q d).1 = d ∧ (walkDir a q d).2.2 = true ∧
    noRemoves (walkDir a q d).2.1
  | .mk fs subs => by
    intro q h
    have hs : NoTargetsSubs a subs := (NoTargetsDir_def a fs subs).mp h
    have hpm := processMatchedSubs_noTargets a q subs hs
    have hws := walkSubs_noTargets a subs q hs
    refine ⟨?_, ?_, ?_⟩
    · rw [show (walkDir a q (DirT.mk fs subs)).1 =
          DirT.mk fs (mergeSubs (processMatchedSubs a q subs).1 (walkSubs a q subs).1) by
        simp [walkDir, hpm.2.1]]
      rw [hpm.1, hws.1, mergeSubs_self]
    · simp [walkDir, hpm.2.1, hws.2.1]
    · have : (walkDir a q (DirT.mk fs subs)).2.1 =
          (processMatchedSubs a q subs).2.1 ++ (walkSubs a q subs).2.1 := by
        simp [walkDir, hpm.2.1]
      rw [this]
      exact noRemoves_append hpm.2.2 hws.2.2

theorem walkSubs_noTargets (a : String) : ∀ (s : SubDirs) (q : String),
    NoTargetsSubs a s →
    (walkSubs a q s).1 = s ∧ (walkSubs a q s).2.2 = true ∧
    noRemoves (walkSubs a q s).2.1
  | .nil => by
    intro q _
    refine ⟨by simp [walkSubs], by simp [walkSubs], ?_⟩
    rw [show (walkSubs a q SubDirs.nil).2.1 = [] by simp [walkSubs]]
    exact noRemoves_nil
  | .cons n c rest => by
    intro q h
    obtain ⟨_, hc, hr⟩ := NoTargetsSubs_parts h
    have hchild := walkDir_noTargets a c (joinPath q n) hc
    have hrest := walkSubs_noTargets a rest q hr
    refine ⟨?_, ?_, ?_⟩
    · simp [walkSubs, hchild.2.1, hchild.1, hrest.1]
    · simp [walkSubs, hchild.2.1, hrest.2.1]
    · have : (walkSubs a q (SubDirs.cons n c rest)).2.1 =
          (walkDir a (joinPath q n) c).2.1 ++ (walkSubs a q rest).2.1 := by
        simp [walkSubs, hchild.2.1]
      rw [this]
      exact noRemoves_append hchild.2.2 hrest.2.2

end

mutual

/-- After cleaning, no targets remain anywhere. -/
theorem cleanDir_noTargets (a : String) : ∀ d : DirT, NoTargetsDir a (cleanDir a d)
  | .mk fs subs => by
    rw [show cleanDir a (DirT.mk fs subs) = DirT.mk fs (cleanSubs a subs) by rfl]
    exact (NoTargetsDir_def a fs (cleanSubs a subs)).mpr (cleanSubs_noTargets a subs)

theorem cleanSubs_noTargets (a : String) : ∀ s : SubDirs, NoTargetsSubs a (cleanSubs a s)
  | .nil => by rw [show cleanSubs a SubDirs.nil = SubDirs.nil by rfl]; trivial
  | .cons n c rest => by
    rw [show cleanSubs a (SubDirs.cons n c rest) =
        SubDirs.cons n (DirT.mk (if matchesTestcase n then
          c.filesOf.filter (fun f => !(shouldDelete a f.name)) else c.filesOf)
          (cleanDir a c).subsOf) (cleanSubs a rest) by rfl]
    refine (by
      simp only [NoTargetsSubs]
      refine ⟨?_, ?_, ?_⟩
      · intro hm f hf
        rw [hm] at hf
        simp only [DirT.filesOf, if_true] at hf
        have := (List.mem_filter.mp hf).2
        simpa using this
      · have := cleanDir_noTargets a c
        cases c with
        | mk cfs csubs =>
          exact (NoTargetsDir_def a _ _).mpr
            ((NoTargetsDir_def a cfs (cleanSubs a csubs)).mp (by
              simpa [cleanDir] using this))
      · exact cleanSubs_noTargets a rest)

end

theorem cleanSubs_names (a : String) : ∀ s : SubDirs,
    (cleanSubs a s).names = s.names := by
  intro s
  induction s using SubDirs.inductionOn with
  | hnil => rfl
  | hcons n c r ih => simp [cleanSubs, SubDirs.names, ih]

/-- Lookup in a cleaned list of children. -/
theorem lookup_cleanSubs (a : String) : ∀ (s : SubDirs) (m : String),
    (cleanSubs a s).lookup m = (s.lookup m).map (fun c =>
      DirT.mk (if matchesTestcase m then
        c.filesOf.filter (fun f => !(shouldDelete a f.name)) else c.filesOf)
      (cleanDir a c).subsOf) := by
  intro s
  induction s using SubDirs.inductionOn with
  | hnil => intro m; rfl
  | hcons n c r ih =>
    intro m
    by_cases hb : (n == m) = true
    · have he : n = m := by simpa [beq_iff_eq] using hb
      subst he
      simp [cleanSubs, SubDirs.lookup, hb]
    · have hbf : (n == m) = false := by simpa using hb
      simp [cleanSubs, SubDirs.lookup, hbf, ih]

theorem WfSubs_lookup : ∀ {s : SubDirs} {m : String} {c : DirT},
    WfSubs s → s.lookup m = some c → WfDir c := by
  intro s
  induction s using SubDirs.inductionOn with
  | hnil => intro m c _ h; cases h
  | hcons n c0 r ih =>
    intro m c hw h
    obtain ⟨hc0, hr⟩ := WfSubs_parts hw
    by_cases hb : (n == m) = true
    · rw [SubDirs.lookup, if_pos hb] at h
      cases h
      exact hc0
    · have hbf : (n == m) = false := by simpa using hb
      rw [SubDirs.lookup, if_neg (by simp [hbf])] at h
      exact ih hr h

theorem AllRemovableSubs_lookup : ∀ {s : SubDirs} {m : String} {c : DirT},
    AllRemovableSubs s → s.lookup m = some c → AllRemovableDir c := by
  intro s
  induction s using SubDirs.inductionOn with
  | hnil => intro m c _ h; cases h
  | hcons n c0 r ih =>
    intro m c ha h
    obtain ⟨hc0, hr⟩ := AllRemovableSubs_parts ha
    by_cases hb : (n == m) = true
    · rw [SubDirs.lookup, if_pos hb] at h
      cases h
      exact hc0
    · have hbf : (n == m) = false := by simpa using hb
      rw [SubDirs.lookup, if_neg (by simp [hbf])] at h
      exact ih hr h

theorem WfDir_subs {d : DirT} (h : WfDir d) : WfSubs d.subsOf := by
  cases d with
  | mk fs subs => exact (WfDir_parts h).2

theorem AllRemovableDir_subs {d : DirT} (h : AllRemovableDir d) :
    AllRemovableSubs d.subsOf := by
  cases d with
  | mk fs subs => exact (AllRemovableDir_parts h).2

theorem lookup_set_some : ∀ {s : SubDirs} {m : String} {c : DirT} (d' : DirT),
    s.lookup m = some c → (s.set m d').lookup m = some d' := by
  intro s
  induction s using SubDirs.inductionOn with
  | hnil => intro m c _ h; cases h
  | hcons n c0 r ih =>
    intro m c d' h
    by_cases hb : (n == m) = true
    · simp [SubDirs.set, SubDirs.lookup, hb]
    · have hbf : (n == m) = false := by simpa using hb
      rw [SubDirs.lookup, if_neg (by simp [hbf])] at h
      simp [SubDirs.set, SubDirs.lookup, hbf]
      exact ih d' h

/-- Replacing an unmatched child by a target-free directory keeps the list
target-free. -/
theorem NoTargetsSubs_set (a : String) : ∀ (s : SubDirs) (m : String) (d' : DirT),
    matchesTestcase m = false → NoTargetsSubs a s → NoTargetsDir a d' →
    NoTargetsSubs a (s.set m d') := by
  intro s
  induction s using SubDirs.inductionOn with
  | hnil => intro m d' _ h _; exact h
  | hcons n c r ih =>
    intro m d' hm h hd
    obtain ⟨h1, h2, h3⟩ := NoTargetsSubs_parts h
    by_cases hb : (n == m) = true
    · have he : n = m := by simpa [beq_iff_eq] using hb
      rw [SubDirs.set, if_pos hb]
      simp only [NoTargetsSubs]
      refine ⟨?_, hd, h3⟩
      intro hmt
      rw [he] at hmt
      rw [hmt] at hm
      cases hm
    · have hbf : (n == m) = false := by simpa using hb
      rw [SubDirs.set, if_neg (by simp [hbf])]
      simp only [NoTargetsSubs]
      exact ⟨h1, h2, ih m d' hm h3 hd⟩

theorem workLoop_nil_files (dirpath : String) : ∀ ns : List String,
    workLoop dirpath ns [] = ([], []) := by
  intro ns
  induction ns with
  | nil => rfl
  | cons n ns ih => simp [workLoop, ih]

theorem matchesTestcase_work : matchesTestcase "work" = false := by decide

/-! ### Unfolding the three ways a run can go -/

theorem run_none (a : String) :
    run a none = (none, [Event.print promptLine, Event.print notFoundLine], true) := rfl

theorem run_some_work {a : String} {d wd : DirT}
    (hok : (walkDir a main_folder d).2.2 = true)
    (hlk : (walkDir a main_folder d).1.subsOf.lookup "work" = some wd) :
    run a (some d) =
      (some (DirT.mk (walkDir a main_folder d).1.filesOf
        ((walkDir a main_folder d).1.subsOf.set "work"
          (DirT.mk (workLoop work_dir (listdir wd) wd.filesOf).1 wd.subsOf))),
       Event.print promptLine :: ((walkDir a main_folder d).2.1 ++
         (workLoop work_dir (listdir wd) wd.filesOf).2), true) := by
  simp [run, hok, hlk]

theorem run_some_nowork {a : String} {d : DirT}
    (hok : (walkDir a main_folder d).2.2 = true)
    (hlk : (walkDir a main_folder d).1.subsOf.lookup "work" = none) :
    run a (some d) =
      (some (walkDir a main_folder d).1,
       Event.print promptLine :: ((walkDir a main_folder d).2.1 ++
         [Event.print notFoundLine]), true) := by
  simp [run, hok, hlk]

theorem run_some_err {a : String} {d : DirT}
    (hfail : (walkDir a main_folder d).2.2 = false) :
    run a (some d) =
      (some (walkDir a main_folder d).1,
       Event.print promptLine :: (walkDir a main_folder d).2.1, false) := by
  simp [run, hfail]

/-- Well-formedness / removability of the whole state. -/
def WfFS : Option DirT → Prop
  | none => True
  | some d => WfDir d

def AllRemovableFS : Option DirT → Prop
  | none => True
  | some d => AllRemovableDir d

/-- Idempotence core: a second run on the state a first run leaves behind
performs no deletion. -/
theorem run_twice_noRemoves (a : String) (fs : Option DirT)
    (hw : WfFS fs) (ha : AllRemovableFS fs) :
    noRemoves (run a (run a fs).1).2.1 := by
  cases fs with
  | none =>
    rw [show (run a (none : Option DirT)).1 = none from rfl, run_none]
    exact noRemoves_cons_print (noRemoves_single_print _)
  | some d =>
    simp only [WfFS, AllRemovableFS] at hw ha
    have hchar := walkDir_char a d main_folder hw ha
    cases hlk : (cleanDir a d).subsOf.lookup "work" with
    | some wd =>
      have hlk' : (walkDir a main_folder d).1.subsOf.lookup "work" = some wd := by
        rw [hchar.1]; exact hlk
      have hrun1 := run_some_work hchar.2 hlk'
      have hlk2 := hlk
      rw [cleanDir_subsOf, lookup_cleanSubs] at hlk2
      cases hc0 : d.subsOf.lookup "work" with
      | none => rw [hc0] at hlk2; cases hlk2
      | some c0 =>
        rw [hc0] at hlk2
        simp only [Option.map_some', matchesTestcase_work, Bool.false_eq_true,
          if_false] at hlk2
        have hwd : wd = DirT.mk c0.filesOf (cleanDir a c0).subsOf :=
          (Option.some.inj hlk2).symm
        have hwc0 : WfDir c0 := WfSubs_lookup (WfDir_subs hw) hc0
        have hac0 : AllRemovableDir c0 := AllRemovableSubs_lookup (AllRemovableDir_subs ha) hc0
        have hnd : (listdir wd).Nodup := by
          rw [hwd, listdir_eq]
          show ((c0.filesOf.map (fun f => f.name)) ++ (cleanDir a c0).subsOf.names).Nodup
          rw [cleanDir_subsOf, cleanSubs_names]
          have := WfDir_listdir hwc0
          rw [listdir_eq] at this
          exact this
        have hwlc := workLoop_char work_dir (listdir wd) wd.filesOf hnd
          (map_name_nodup_of_listdir hnd)
        have hempty : (workLoop work_dir (listdir wd) wd.filesOf).1 = [] := by
          rw [hwlc]
          dsimp only
          rw [List.filter_eq_nil_iff]
          intro f hf
          have hrem : f.removable = true := by
            apply AllRemovableDir_files hac0
            have he : wd.filesOf = c0.filesOf := by rw [hwd]; rfl
            rw [he] at hf
            exact hf
          have hmem : f.name ∈ listdir wd :=
            List.mem_append_left _ (List.mem_map_of_mem (fun f => f.name) hf)
          simp [hrem, hmem]
        rw [hrun1]
        dsimp only
        have hT : NoTargetsDir a
            (DirT.mk (walkDir a main_folder d).1.filesOf
              ((walkDir a main_folder d).1.subsOf.set "work"
                (DirT.mk (workLoop work_dir (listdir wd) wd.filesOf).1 wd.subsOf))) := by
          rw [NoTargetsDir_def]
          apply NoTargetsSubs_set a _ _ _ matchesTestcase_work
          · rw [hchar.1, cleanDir_subsOf]
            exact cleanSubs_noTargets a d.subsOf
          · rw [hempty, NoTargetsDir_def]
            rw [show wd.subsOf = (cleanDir a c0).subsOf by rw [hwd]; rfl]
            rw [cleanDir_subsOf]
            exact cleanSubs_noTargets a c0.subsOf
        have hwalk2 := walkDir_noTargets a _ main_folder hT
        have hlkT : (walkDir a main_folder
            (DirT.mk (walkDir a main_folder d).1.filesOf
              ((walkDir a main_folder d).1.subsOf.set "work"
                (DirT.mk (workLoop work_dir (listdir wd) wd.filesOf).1
                  wd.subsOf)))).1.subsOf.lookup "work" =
            some (DirT.mk (workLoop work_dir (listdir wd) wd.filesOf).1 wd.subsOf) := by
          rw [hwalk2.1]
          exact lookup_set_some _ hlk'
        rw [run_some_work hwalk2.2.1 hlkT]
        dsimp only
        apply noRemoves_cons_print
        apply noRemoves_append hwalk2.2.2
        rw [show (DirT.mk (workLoop work_dir (listdir wd) wd.filesOf).1
            wd.subsOf).filesOf = (workLoop work_dir (listdir wd) wd.filesOf).1 from rfl]
        rw [hempty, workLoop_nil_files]
        exact noRemoves_nil
    | none =>
      have hlk' : (walkDir a main_folder d).1.subsOf.lookup "work" = none := by
        rw [hchar.1]; exact hlk
      rw [run_some_nowork hchar.2 hlk']
      dsimp only
      rw [hchar.1]
      have hT := cleanDir_noTargets a d
      have hwalk2 := walkDir_noTargets a (cleanDir a d) main_folder hT
      have hlkT : (walkDir a main_folder (cleanDir a d)).1.subsOf.lookup "work" = none := by
        rw [hwalk2.1]; exact hlk
      rw [run_some_nowork hwalk2.2.1 hlkT]
      dsimp only
      apply noRemoves_cons_print
      exact noRemoves_append hwalk2.2.2 (noRemoves_single_print _)

/-! ### The prompt answer only matters through the comparison with "y" -/

theorem processDir_answer {a : String} (ha : (a == "y") = false)
    (q : String) (d : DirT) : processDir a q d = processDir "n" q d := by
  have hn : (("n" : String) == "y") = false := by decide
  by_cases hok : (delete_files_in_directory q d).2.2 = true
  · simp [processDir, hok, ha, hn]
  · have hokf : (delete_files_in_directory q d).2.2 = false := by simpa using hok
    simp [processDir, hokf]

theorem processMatchedSubs_answer {a : String} (ha : (a == "y") = false)
    (q : String) : ∀ s : SubDirs,
    processMatchedSubs a q s = processMatchedSubs "n" q s := by
  intro s
  induction s using SubDirs.inductionOn with
  | hnil => rfl
  | hcons n c r ih =>
    by_cases hm : matchesTestcase n = true
    · simp only [processMatchedSubs, hm, if_true, processDir_answer ha, ih]
    · have hmf : matchesTestcase n = false := by simpa using hm
      simp only [processMatchedSubs, hmf, Bool.false_eq_true, if_false, ih]

mutual

theorem walkDir_answer {a : String} (ha : (a == "y") = false) :
    ∀ (d : DirT) (q : String), walkDir a q d = walkDir "n" q d
  | .mk fs subs => by
    intro q
    have hws : walkSubs a q subs = walkSubs "n" q subs := walkSubs_answer ha subs q
    simp only [walkDir, processMatchedSubs_answer ha, hws]

theorem walkSubs_answer {a : String} (ha : (a == "y") = false) :
    ∀ (s : SubDirs) (q : String), walkSubs a q s = walkSubs "n" q s
  | .nil => by intro q; rfl
  | .cons n c rest => by
    intro q
    have hc : walkDir a (joinPath q n) c = walkDir "n" (joinPath q n) c :=
      walkDir_answer ha c (joinPath q n)
    have hr : walkSubs a q rest = walkSubs "n" q rest := walkSubs_answer ha rest q
    simp only [walkSubs, hc, hr]

end

/-- Any prompt answer other than exactly `y` behaves like `n`. -/
theorem run_answer {a : String} (ha : a ≠ "y") (fs : Option DirT) :
    run a fs = run "n" fs := by
  have hb : (a == "y") = false := by simpa using ha
  cases fs with
  | none => rfl
  | some d => simp only [run, walkDir_answer hb]

/-! ### Where the per-file console line sits relative to the removal -/

/-- Every successful removal in the trace is announced by a console line
naming its path, printed immediately before it (tree-walk phase) or
immediately after it (work-directory phase). -/
def adjacentNaming (evs : List Event) : Prop :=
  ∀ pre q suf, evs = pre ++ Event.remove q :: suf →
    (∃ pre', pre = pre' ++ [Event.print ("Deleting file: " ++ q)]) ∨
    (∃ suf', suf = Event.print ("Deleted file: '" ++ q ++ "'") :: suf')

theorem adjacentNaming_nil : adjacentNaming [] := by
  intro pre q suf heq
  cases pre <;> simp at heq

theorem adjacentNaming_append {e1 e2 : List Event} (h1 : adjacentNaming e1)
    (h2 : adjacentNaming e2) : adjacentNaming (e1 ++ e2) := by
  intro pre q suf heq
  rcases List.append_eq_append_iff.mp heq.symm with ⟨a', ha1, ha2⟩ | ⟨c', hc1, hc2⟩
  · cases a' with
    | nil =>
      simp only [List.nil_append] at ha2
      rcases h2 [] q suf (by rw [← ha2]; rfl) with ⟨p0, hp⟩ | ⟨s0, hs⟩
      · exact absurd hp (by cases p0 <;> simp)
      · right
        exact ⟨s0, hs⟩
    | cons hd a'' =>
      simp only [List.cons_append, List.cons.injEq] at ha2
      obtain ⟨hhd, hsuf⟩ := ha2
      rcases h1 pre q a'' (by rw [ha1, hhd]) with ⟨p0, hp⟩ | ⟨s0, hs⟩
      · left
        exact ⟨p0, hp⟩
      · right
        exact ⟨s0 ++ e2, by rw [hsuf, hs, List.cons_append]⟩
  · rcases h2 c' q suf hc2 with ⟨p0, hp⟩ | ⟨s0, hs⟩
    · left
      exact ⟨e1 ++ p0, by rw [hc1, hp, List.append_assoc]⟩
    · right
      exact ⟨s0, hs⟩

theorem adjacentNaming_cons_print {evs : List Event} (s : String)
    (h : adjacentNaming evs) : adjacentNaming (Event.print s :: evs) := by
  intro pre q suf heq
  cases pre with
  | nil => simp at heq
  | cons x pre' =>
    simp only [List.cons_append, List.cons.injEq] at heq
    rcases h pre' q suf heq.2 with ⟨pre'', hp⟩ | ⟨suf', hs⟩
    · left
      exact ⟨x :: pre'', by rw [hp, List.cons_append]⟩
    · right
      exact ⟨suf', hs⟩

theorem adjacentNaming_delete_pair {evs : List Event} (q' : String)
    (h : adjacentNaming evs) :
    adjacentNaming (Event.print ("Deleting file: " ++ q') ::
      Event.remove q' :: evs) := by
  intro pre q suf heq
  cases pre with
  | nil => simp at heq
  | cons x pre' =>
    simp only [List.cons_append, List.cons.injEq] at heq
    obtain ⟨hx, heq2⟩ := heq
    cases pre' with
    | nil =>
      simp only [List.nil_append, List.cons.injEq, Event.remove.injEq] at heq2
      obtain ⟨hq, _⟩ := heq2
      left
      refine ⟨[], ?_⟩
      rw [List.nil_append, ← hx, hq]
    | cons y pre'' =>
      simp only [List.cons_append, List.cons.injEq] at heq2
      obtain ⟨hy, heq3⟩ := heq2
      rcases h pre'' q suf heq3 with ⟨p0, hp⟩ | ⟨s0, hs⟩
      · left
        exact ⟨x :: y :: p0, by rw [hp]; simp⟩
      · right
        exact ⟨s0, hs⟩

theorem adjacentNaming_work_pair {evs : List Event} (q' : String)
    (h : adjacentNaming evs) :
    adjacentNaming (Event.remove q' ::
      Event.print ("Deleted file: '" ++ q' ++ "'") :: evs) := by
  intro pre q suf heq
  cases pre with
  | nil =>
    simp only [List.nil_append, List.cons.injEq, Event.remove.injEq] at heq
    obtain ⟨hq, hsuf⟩ := heq
    right
    exact ⟨evs, by rw [← hsuf, hq]⟩
  | cons x pre' =>
    simp only [List.cons_append, List.cons.injEq] at heq
    obtain ⟨hx, heq2⟩ := heq
    cases pre' with
    | nil => simp at heq2
    | cons y pre'' =>
      simp only [List.cons_append, List.cons.injEq] at heq2
      obtain ⟨hy, heq3⟩ := heq2
      rcases h pre'' q suf heq3 with ⟨p0, hp⟩ | ⟨s0, hs⟩
      · left
        exact ⟨x :: y :: p0, by rw [hp]; simp⟩
      · right
        exact ⟨s0, hs⟩

theorem deleteLoop_adjacent (pred : String → Bool) (dirpath : String) :
    ∀ (ns : List String) (files : List FileE),
    adjacentNaming (deleteLoop pred dirpath ns files).2.1 := by
  intro ns
  induction ns with
  | nil => intro files; exact adjacentNaming_nil
  | cons n ns ih =>
    intro files
    cases hf : files.find? (fun f => f.name == n) with
    | none =>
      rw [show (deleteLoop pred dirpath (n :: ns) files).2.1 =
          (deleteLoop pred dirpath ns files).2.1 by simp [deleteLoop, hf]]
      exact ih files
    | some f =>
      by_cases hp : pred n = true
      · by_cases hrem : f.removable = true
        · rw [show (deleteLoop pred dirpath (n :: ns) files).2.1 =
              Event.print ("Deleting file: " ++ joinPath dirpath n) ::
              Event.remove (joinPath dirpath n) ::
              (deleteLoop pred dirpath ns
                (files.eraseP (fun g => g.name == n))).2.1 by
            simp [deleteLoop, hf, hp, hrem]]
          exact adjacentNaming_delete_pair _ (ih _)
        · have hrf : f.removable = false := by simpa using hrem
          rw [show (deleteLoop pred dirpath (n :: ns) files).2.1 =
              [Event.print ("Deleting file: " ++ joinPath dirpath n)] by
            simp [deleteLoop, hf, hp, hrf]]
          exact adjacentNaming_cons_print _ adjacentNaming_nil
      · have hpf : pred n = false := by simpa using hp
        rw [show (deleteLoop pred dirpath (n :: ns) files).2.1 =
            (deleteLoop pred dirpath ns files).2.1 by simp [deleteLoop, hf, hpf]]
        exact ih files

theorem workLoop_adjacent (dirpath : String) :
    ∀ (ns : List String) (files : List FileE),
    adjacentNaming (workLoop dirpath ns files).2 := by
  intro ns
  induction ns with
  | nil => intro files; exact adjacentNaming_nil
  | cons n ns ih =>
    intro files
    cases hf : files.find? (fun f => f.name == n) with
    | none =>
      rw [show (workLoop dirpath (n :: ns) files).2 =
          (workLoop dirpath ns files).2 by simp [workLoop, hf]]
      exact ih files
    | some f =>
      by_cases hrem : f.removable = true
      · rw [show (workLoop dirpath (n :: ns) files).2 =
            Event.remove (joinPath dirpath n) ::
            Event.print ("Deleted file: '" ++ joinPath dirpath n ++ "'") ::
            (workLoop dirpath ns (files.eraseP (fun g => g.name == n))).2 by
          simp [workLoop, hf, hrem]]
        exact adjacentNaming_work_pair _ (ih _)
      · have hrf : f.removable = false := by simpa using hrem
        rw [show (workLoop dirpath (n :: ns) files).2 =
            Event.print ("Failed to delete file '" ++ joinPath dirpath n ++
              "'. Reason: " ++ f.err) :: (workLoop dirpath ns files).2 by
          simp [workLoop, hf, hrf]]
        exact adjacentNaming_cons_print _ (ih files)

theorem processDir_adjacent (a q : String) (d : DirT) :
    adjacentNaming (processDir a q d).2.1 := by
  have h1 : (delete_files_in_directory q d).2.1 =
      (deleteLoop isPrimaryTarget q (listdir d) d.filesOf).2.1 := by
    simp [delete_files_in_directory]
  by_cases hok : (delete_files_in_directory q d).2.2 = true
  · by_cases ha : (a == "y") = true
    · rw [show (processDir a q d).2.1 =
          Event.print ("Processing directory: " ++ q) ::
          ((delete_files_in_directory q d).2.1 ++
           (delete_matlab_files_in_directory q
             (delete_files_in_directory q d).1).2.1) by
        simp [processDir, hok, ha]]
      apply adjacentNaming_cons_print
      apply adjacentNaming_append
      · rw [h1]; exact deleteLoop_adjacent _ _ _ _
      · rw [show (delete_matlab_files_in_directory q
            (delete_files_in_directory q d).1).2.1 =
            (deleteLoop isMatlabTarget q
              (listdir (delete_files_in_directory q d).1)
              (delete_files_in_directory q d).1.filesOf).2.1 by
          simp [delete_matlab_files_in_directory]]
        exact deleteLoop_adjacent _ _ _ _
    · have haf : (a == "y") = false := by simpa using ha
      rw [show (processDir a q d).2.1 =
          Event.print ("Processing directory: " ++ q) ::
          (delete_files_in_directory q d).2.1 by simp [processDir, hok, haf]]
      apply adjacentNaming_cons_print
      rw [h1]
      exact deleteLoop_adjacent _ _ _ _
  · have hokf : (delete_files_in_directory q d).2.2 = false := by simpa using hok
    rw [show (processDir a q d).2.1 =
        Event.print ("Processing directory: " ++ q) ::
        (delete_files_in_directory q d).2.1 by simp [processDir, hokf]]
    apply adjacentNaming_cons_print
    rw [h1]
    exact deleteLoop_adjacent _ _ _ _

theorem processMatchedSubs_adjacent (a q : String) : ∀ s : SubDirs,
    adjacentNaming (processMatchedSubs a q s).2.1 := by
  intro s
  induction s using SubDirs.inductionOn with
  | hnil =>
    rw [show (processMatchedSubs a q SubDirs.nil).2.1 = [] by
      simp [processMatchedSubs]]
    exact adjacentNaming_nil
  | hcons n c r ih =>
    by_cases hm : matchesTestcase n = true
    · by_cases hok : (processDir a (joinPath q n) c).2.2 = true
      · rw [show (processMatchedSubs a q (SubDirs.cons n c r)).2.1 =
            (processDir a (joinPath q n) c).2.1 ++
            (processMatchedSubs a q r).2.1 by simp [processMatchedSubs, hm, hok]]
        exact adjacentNaming_append (processDir_adjacent a _ c) ih
      · have hokf : (processDir a (joinPath q n) c).2.2 = false := by simpa using hok
        rw [show (processMatchedSubs a q (SubDirs.cons n c r)).2.1 =
            (processDir a (joinPath q n) c).2.1 by simp [processMatchedSubs, hm, hokf]]
        exact processDir_adjacent a _ c
    · have hmf : matchesTestcase n = false := by simpa using hm
      rw [show (processMatchedSubs a q (SubDirs.cons n c r)).2.1 =
          (processMatchedSubs a q r).2.1 by simp [processMatchedSubs, hmf]]
      exact ih

mutual

theorem walkDir_adjacent (a : String) : ∀ (d : DirT) (q : String),
    adjacentNaming (walkDir a q d).2.1
  | .mk fs subs => by
    intro q
    by_cases hok : (processMatchedSubs a q subs).2.2 = true
    · rw [show (walkDir a q (DirT.mk fs subs)).2.1 =
          (processMatchedSubs a q subs).2.1 ++ (walkSubs a q subs).2.1 by
        simp [walkDir, hok]]
      exact adjacentNaming_append (processMatchedSubs_adjacent a q subs)
        (walkSubs_adjacent a subs q)
    · have hokf : (processMatchedSubs a q subs).2.2 = false := by simpa using hok
      rw [show (walkDir a q (DirT.mk fs subs)).2.1 =
          (processMatchedSubs a q subs).2.1 by simp [walkDir, hokf]]
      exact processMatchedSubs_adjacent a q subs

theorem walkSubs_adjacent (a : String) : ∀ (s : SubDirs) (q : String),
    adjacentNaming (walkSubs a q s).2.1
  | .nil => by
    intro q
    rw [show (walkSubs a q SubDirs.nil).2.1 = [] by simp [walkSubs]]
    exact adjacentNaming_nil
  | .cons n c rest => by
    intro q
    by_cases hok : (walkDir a (joinPath q n) c).2.2 = true
    · rw [show (walkSubs a q (SubDirs.cons n c rest)).2.1 =
          (walkDir a (joinPath q n) c).2.1 ++ (walkSubs a q rest).2.1 by
        simp [walkSubs, hok]]
      exact adjacentNaming_append (walkDir_adjacent a c (joinPath q n))
        (walkSubs_adjacent a rest q)
    · have hokf : (walkDir a (joinPath q n) c).2.2 = false := by simpa using hok
      rw [show (walkSubs a q (SubDirs.cons n c rest)).2.1 =
          (walkDir a (joinPath q n) c).2.1 by simp [walkSubs, hokf]]
      exact walkDir_adjacent a c (joinPath q n)

end

/-- Adjacency of the naming line for the whole program. -/
theorem run_adjacent (a : String) (fs : Option DirT) :
    adjacentNaming (run a fs).2.1 := by
  cases fs with
  | none =>
    rw [run_none]
    exact adjacentNaming_cons_print _ (adjacentNaming_cons_print _ adjacentNaming_nil)
  | some d =>
    by_cases hok : (walkDir a main_folder d).2.2 = true
    · cases hlk : (walkDir a main_folder d).1.subsOf.lookup "work" with
      | some wd =>
        rw [run_some_work hok hlk]
        dsimp only
        apply adjacentNaming_cons_print
        exact adjacentNaming_append (walkDir_adjacent a d main_folder)
          (workLoop_adjacent work_dir _ _)
      | none =>
        rw [run_some_nowork hok hlk]
        dsimp only
        apply adjacentNaming_cons_print
        exact adjacentNaming_append (walkDir_adjacent a d main_folder)
          (adjacentNaming_cons_print _ adjacentNaming_nil)
    · have hokf : (walkDir a main_folder d).2.2 = false := by simpa using hok
      rw [run_some_err hokf]
      dsimp only
      exact adjacentNaming_cons_print _ (walkDir_adjacent a d main_folder)

theorem dirAt_mk_subs (X : List FileE) (c : DirT) (y : String) (r : List String) :
    dirAt (DirT.mk X c.subsOf) (y :: r) = dirAt c (y :: r) :=
  dirAt_congr_subs (show (DirT.mk X c.subsOf).subsOf = c.subsOf from rfl) y r

theorem dirAt_cleanDir_none (a : String) : ∀ (p : List String) (d : DirT),
    dirAt d p = none → dirAt (cleanDir a d) p = none := by
  intro p
  induction p with
  | nil => intro d h; cases h
  | cons m p' ih =>
    intro d h
    cases hlk : d.subsOf.lookup m with
    | none =>
      have hlk2 : (cleanDir a d).subsOf.lookup m = none := by
        rw [cleanDir_subsOf, lookup_cleanSubs, hlk]
        rfl
      simp [dirAt, hlk2]
    | some c =>
      have hrec : dirAt c p' = none := by
        simp only [dirAt, hlk] at h
        exact h
      have hlk2 : (cleanDir a d).subsOf.lookup m =
          some (DirT.mk (if matchesTestcase m then
            c.filesOf.filter (fun f => !(shouldDelete a f.name)) else c.filesOf)
            (cleanDir a c).subsOf) := by
        rw [cleanDir_subsOf, lookup_cleanSubs, hlk]
        rfl
      simp only [dirAt, hlk2]
      cases p' with
      | nil => cases hrec
      | cons y r =>
        rw [dirAt_mk_subs]
        exact ih c hrec

theorem dirAt_cleanDir_some (a : String) : ∀ (p : List String) (n : String) (d c : DirT),
    dirAt d (p ++ [n]) = some c →
    dirAt (cleanDir a d) (p ++ [n]) =
      some (DirT.mk (if matchesTestcase n then
        c.filesOf.filter (fun f => !(shouldDelete a f.name)) else c.filesOf)
        (cleanDir a c).subsOf) := by
  intro p
  induction p with
  | nil =>
    intro n d c h
    rw [List.nil_append] at h ⊢
    rw [dirAt_single] at h ⊢
    rw [cleanDir_subsOf, lookup_cleanSubs, h]
    rfl
  | cons m p' ih =>
    intro n d c h
    rw [List.cons_append] at h ⊢
    cases hlk : d.subsOf.lookup m with
    | none =>
      simp only [dirAt, hlk] at h
      exact Option.noConfusion h
    | some c1 =>
      have hrec : dirAt c1 (p' ++ [n]) = some c := by
        simp only [dirAt, hlk] at h
        exact h
      have hlk2 : (cleanDir a d).subsOf.lookup m =
          some (DirT.mk (if matchesTestcase m then
            c1.filesOf.filter (fun f => !(shouldDelete a f.name)) else c1.filesOf)
            (cleanDir a c1).subsOf) := by
        rw [cleanDir_subsOf, lookup_cleanSubs, hlk]
        rfl
      simp only [dirAt, hlk2]
      cases hpe : p' ++ [n] with
      | nil => exact absurd hpe (by simp)
      | cons y r =>
        rw [dirAt_mk_subs]
        have := ih n c1 c hrec
        rw [hpe] at this
        exact this

theorem mergeSubs_names : ∀ (s1 s2 : SubDirs), s1.names = s2.names →
    (mergeSubs s1 s2).names = s1.names := by
  intro s1
  induction s1 using SubDirs.inductionOn with
  | hnil =>
    intro s2 h
    have : s2 = .nil := names_eq_nil (by simpa [SubDirs.names] using h.symm)
    subst this
    rfl
  | hcons n c1 r1 ih =>
    intro s2 h
    cases s2 with
    | nil => simp [SubDirs.names] at h
    | cons n2 c2 r2 =>
      simp only [SubDirs.names, List.cons.injEq] at h
      obtain ⟨rfl, htl⟩ := h
      simp [mergeSubs, SubDirs.names, ih r2 htl]

/-- The walk preserves the immediate-children names of the root. -/
theorem walkDir_subs_names (a q : String) (d : DirT) :
    (walkDir a q d).1.subsOf.names = d.subsOf.names := by
  cases d with
  | mk fs subs =>
    by_cases hok : (processMatchedSubs a q subs).2.2 = true
    · rw [show (walkDir a q (DirT.mk fs subs)).1 =
          DirT.mk fs (mergeSubs (processMatchedSubs a q subs).1 (walkSubs a q subs).1) by
        simp [walkDir, hok]]
      show (mergeSubs (processMatchedSubs a q subs).1 (walkSubs a q subs).1).names = subs.names
      rw [mergeSubs_names _ _ (by rw [processMatchedSubs_names, walkSubs_names]),
        processMatchedSubs_names]
    · have hokf : (processMatchedSubs a q subs).2.2 = false := by simpa using hok
      rw [show (walkDir a q (DirT.mk fs subs)).1 =
          DirT.mk fs (processMatchedSubs a q subs).1 by simp [walkDir, hokf]]
      show (processMatchedSubs a q subs).1.names = subs.names
      rw [processMatchedSubs_names]

theorem find?_none_of_not_mem {files : List FileE} {m : String}
    (h : m ∉ files.map (fun f => f.name)) :
    files.find? (fun f => f.name == m) = none := by
  rw [List.find?_eq_none]
  intro f hf
  simp only [beq_iff_eq]
  intro he
  exact h (he ▸ List.mem_map_of_mem (fun f => f.name) hf)

theorem flatMap_map_find (dirpath : String) : ∀ files : List FileE,
    (files.map (fun f => f.name)).Nodup →
    (files.map (fun f => f.name)).flatMap (fun n =>
      match files.find? (fun f => f.name == n) with
      | some f => workEvents dirpath f
      | none => []) = files.flatMap (workEvents dirpath) := by
  intro files
  induction files with
  | nil => intro _; rfl
  | cons f rest ih =>
    intro h
    simp only [List.map_cons, List.nodup_cons] at h
    rw [List.map_cons, List.flatMap_cons, List.flatMap_cons]
    have hhead : (match (f :: rest).find? (fun g => g.name == f.name) with
        | some g => workEvents dirpath g
        | none => []) = workEvents dirpath f := by
      rw [List.find?_cons_of_pos _ (by simp)]
    rw [hhead]
    congr 1
    have hstep : (rest.map (fun f => f.name)).flatMap (fun n =>
        match (f :: rest).find? (fun g => g.name == n) with
        | some g => workEvents dirpath g
        | none => []) = (rest.map (fun f => f.name)).flatMap (fun n =>
        match rest.find? (fun g => g.name == n) with
        | some g => workEvents dirpath g
        | none => []) := by
      apply List.flatMap_congr
      intro n hn
      have hb : (f.name == n) = false := by
        simp only [beq_eq_false_iff_ne, ne_eq]
        intro he
        exact h.1 (he ▸ hn)
      rw [show (f :: rest).find? (fun g => g.name == n) =
          rest.find? (fun g => g.name == n) by
        rw [List.find?_cons]
        simp [hb]]
    rw [hstep, ih h.2]

/-- The guarded work-directory loop over a directory listing: every listed
regular file is attempted independently, failures are reported with their
reason and skipped, successes are removed, and the loop never raises. -/
theorem workLoop_listdir_char (dirpath : String) (files : List FileE)
    (ds : List String) (h : ((files.map fun f => f.name) ++ ds).Nodup) :
    workLoop dirpath (files.map (fun f => f.name) ++ ds) files =
      (files.filter (fun f => !f.removable),
       files.flatMap (workEvents dirpath)) := by
  have hm := List.nodup_append.mp h
  have hchar := workLoop_char dirpath _ files h hm.1
  rw [hchar]
  refine Prod.ext ?_ ?_
  · dsimp only
    refine List.filter_congr fun f hf => ?_
    have : f.name ∈ files.map (fun g => g.name) ++ ds :=
      List.mem_append_left _ (List.mem_map_of_mem _ hf)
    simp [this]
  · dsimp only
    rw [List.flatMap_append]
    have hds : ds.flatMap (fun n =>
        match files.find? (fun f => f.name == n) with
        | some f => workEvents dirpath f
        | none => []) = [] := by
      have hcg : ∀ m ∈ ds, (match files.find? (fun f => f.name == m) with
          | some f => workEvents dirpath f
          | none => []) = ([] : List Event) := by
        intro m hmem
        have : m ∉ files.map (fun f => f.name) := by
          intro hin
          exact hm.2.2 hin hmem
        rw [find?_none_of_not_mem this]
      rw [List.flatMap_congr hcg]
      simp
    rw [hds, List.append_nil, flatMap_map_find dirpath files hm.1]

/-! ### The claims -/

/-- Claim C1: in a matched (`testcase*`) directory, a regular file is
deleted iff its name starts with `log_`, ends with `.log`, starts with
`output_c`, starts with `output_test_`, or — only when the prompt answer is
`y` — starts with `input` or `output_ref` (the `shouldDelete` predicate);
all other files and all subdirectory entries are left untouched.  Stated
for a directory with no duplicate entry names whose targeted files are
removable (the run aborts otherwise, see C3). -/
theorem claim_C1_matched_dir_deletion (answer dirpath : String) (d : DirT)
    (hnd : (listdir d).Nodup)
    (hrem : ∀ f ∈ d.filesOf, shouldDelete answer f.name = true → f.removable = true) :
    (processDir answer dirpath d).1 =
      DirT.mk (d.filesOf.filter (fun f => !(shouldDelete answer f.name))) d.subsOf ∧
    (processDir answer dirpath d).2.2 = true ∧
    ∀ f ∈ d.filesOf,
      (f ∈ (processDir answer dirpath d).1.filesOf ↔
        shouldDelete answer f.name = false) := by
  have h := processDir_char answer dirpath d hnd hrem
  refine ⟨h.1, h.2, ?_⟩
  intro f hf
  rw [h.1]
  show f ∈ (d.filesOf.filter (fun f => !(shouldDelete answer f.name))) ↔ _
  rw [List.mem_filter]
  simp [hf]

theorem claim_C1_witness :
    (listdir (DirT.mk [⟨"log_run.txt", true, ""⟩, ⟨"keep.txt", true, ""⟩]
      SubDirs.nil)).Nodup ∧
    (processDir "n" "../data/testcase1"
      (DirT.mk [⟨"log_run.txt", true, ""⟩, ⟨"keep.txt", true, ""⟩] SubDirs.nil)).1 =
      DirT.mk (([⟨"log_run.txt", true, ""⟩, ⟨"keep.txt", true, ""⟩] : List FileE).filter
        (fun f => !(shouldDelete "n" f.name))) SubDirs.nil :=
  ⟨by decide, (claim_C1_matched_dir_deletion "n" "../data/testcase1" _
    (by decide) (by decide)).1⟩

/-- Claim C4: the program reads one line of input (the `answer` argument of
`run`); any answer other than exactly the single character `y` behaves as
"no", with no retry, and the secondary (MATLAB) rule is applied iff the
answer is exactly `y`: with answer `y` a matched directory keeps exactly
the files matching neither rule, with any other answer it keeps exactly the
files the primary rule does not match. -/
theorem claim_C4_prompt_gate :
    (∀ (answer : String) (fs : Option DirT), answer ≠ "y" →
      run answer fs = run "n" fs) ∧
    (∀ (dirpath : String) (d : DirT), (listdir d).Nodup →
      (∀ f ∈ d.filesOf, f.removable = true) →
      (processDir "y" dirpath d).1.filesOf =
        d.filesOf.filter (fun f => !(isPrimaryTarget f.name || isMatlabTarget f.name)) ∧
      ∀ answer : String, (answer == "y") = false →
        (processDir answer dirpath d).1.filesOf =
          d.filesOf.filter (fun f => !isPrimaryTarget f.name)) := by
  refine ⟨fun answer fs ha => run_answer ha fs, ?_⟩
  intro dirpath d hnd hrem
  constructor
  · have hy := processDir_char "y" dirpath d hnd (fun f hf _ => hrem f hf)
    rw [hy.1]
    show (d.filesOf.filter (fun f => !(shouldDelete "y" f.name))) = _
    exact List.filter_congr (fun f _ => by simp [shouldDelete])
  · intro answer ha
    have hc := processDir_char answer dirpath d hnd (fun f hf _ => hrem f hf)
    rw [hc.1]
    show (d.filesOf.filter (fun f => !(shouldDelete answer f.name))) = _
    exact List.filter_congr (fun f _ => by simp [shouldDelete, ha])

theorem claim_C4_witness :
    (("maybe" : String) ≠ "y" ∧
      run "maybe" (some (DirT.mk [] SubDirs.nil)) =
        run "n" (some (DirT.mk [] SubDirs.nil))) ∧
    ((listdir (DirT.mk [⟨"input_a.csv", true, ""⟩] SubDirs.nil)).Nodup ∧
      (processDir "y" "../data/testcase2"
        (DirT.mk [⟨"input_a.csv", true, ""⟩] SubDirs.nil)).1.filesOf =
        ([⟨"input_a.csv", true, ""⟩] : List FileE).filter
          (fun f => !(isPrimaryTarget f.name || isMatlabTarget f.name))) :=
  ⟨⟨by decide, claim_C4_prompt_gate.1 "maybe" _ (by decide)⟩,
   ⟨by decide, (claim_C4_prompt_gate.2 "../data/testcase2" _
     (by decide) (by decide)).1⟩⟩

/-- Claim C5: idempotence — running the program a second time with the same
prompt answer on the state the first run left behind performs no deletion
(no `Event.remove` in the second trace).  Stated for well-formed states all
of whose files are removable, so that the first run terminates normally. -/
theorem claim_C5_idempotence (a : String) (fs : Option DirT)
    (hw : WfFS fs) (ha : AllRemovableFS fs) :
    noRemoves (run a (run a fs).1).2.1 :=
  run_twice_noRemoves a fs hw ha

theorem claim_C5_witness :
    WfFS (some (DirT.mk []
      (SubDirs.cons "testcase1" (DirT.mk [⟨"log_a", true, ""⟩] SubDirs.nil)
        SubDirs.nil))) ∧
    AllRemovableFS (some (DirT.mk []
      (SubDirs.cons "testcase1" (DirT.mk [⟨"log_a", true, ""⟩] SubDirs.nil)
        SubDirs.nil))) ∧
    noRemoves (run "y" (run "y" (some (DirT.mk []
      (SubDirs.cons "testcase1" (DirT.mk [⟨"log_a", true, ""⟩] SubDirs.nil)
        SubDirs.nil)))).1).2.1 :=
  ⟨by simp [WfFS, WfDir, WfSubs]; decide,
   by simp [AllRemovableFS, AllRemovableDir, AllRemovableSubs],
   claim_C5_idempotence "y" _ (by simp [WfFS, WfDir, WfSubs]; decide)
     (by simp [AllRemovableFS, AllRemovableDir, AllRemovableSubs])⟩

/-- Claim C7: if the tree walk finishes normally and `../data` has no
`work` child, the program prints the not-found message, performs no
deletion in the work-directory phase (the trace gains only that one line),
leaves the tree-walk results untouched, and exits normally. -/
theorem claim_C7_work_missing (a : String) (d : DirT)
    (hlk : d.subsOf.lookup "work" = none)
    (hok : (walkDir a main_folder d).2.2 = true) :
    run a (some d) =
      (some (walkDir a main_folder d).1,
       Event.print promptLine :: ((walkDir a main_folder d).2.1 ++
         [Event.print notFoundLine]), true) := by
  apply run_some_nowork hok
  rw [lookup_eq_none_iff] at hlk ⊢
  rw [walkDir_subs_names]
  exact hlk

theorem claim_C7_witness :
    ((DirT.mk [⟨"rootfile", true, ""⟩] SubDirs.nil).subsOf.lookup "work" = none) ∧
    ((walkDir "n" main_folder (DirT.mk [⟨"rootfile", true, ""⟩] SubDirs.nil)).2.2 = true) ∧
    run "n" (some (DirT.mk [⟨"rootfile", true, ""⟩] SubDirs.nil)) =
      (some (walkDir "n" main_folder (DirT.mk [⟨"rootfile", true, ""⟩] SubDirs.nil)).1,
       Event.print promptLine ::
         ((walkDir "n" main_folder (DirT.mk [⟨"rootfile", true, ""⟩] SubDirs.nil)).2.1 ++
          [Event.print notFoundLine]), true) :=
  ⟨by decide, by decide,
   claim_C7_work_missing "n" _ (by decide) (by decide)⟩

/-- Claim C8: when `../data` does not exist the walk yields nothing (no
error, nothing deleted) and the run still reaches the work-directory phase,
which reports the missing work directory and exits normally. -/
theorem claim_C8_missing_root (a : String) :
    run a none = (none, [Event.print promptLine, Event.print notFoundLine], true) ∧
    noRemoves (run a none).2.1 := by
  refine ⟨run_none a, ?_⟩
  rw [run_none]
  exact noRemoves_cons_print (noRemoves_single_print _)

/-- Claim C10: the root directory itself is never treated as a matched
directory: the walk never touches the files directly inside the directory
it starts from, whatever the path it is invoked with (in particular one
whose base name matches `testcase*`), and a full run preserves the files
directly inside `../data`. -/
theorem claim_C10_untouched_root :
    (∀ (a q : String) (d : DirT), (walkDir a q d).1.filesOf = d.filesOf) ∧
    (∀ (a : String) (d : DirT), ∃ d',
      (run a (some d)).1 = some d' ∧ d'.filesOf = d.filesOf) := by
  refine ⟨fun a q d => walkDir_filesOf a q d, ?_⟩
  intro a d
  by_cases hok : (walkDir a main_folder d).2.2 = true
  · cases hlk : (walkDir a main_folder d).1.subsOf.lookup "work" with
    | some wd =>
      rw [run_some_work hok hlk]
      exact ⟨_, rfl, walkDir_filesOf a main_folder d⟩
    | none =>
      rw [run_some_nowork hok hlk]
      exact ⟨_, rfl, walkDir_filesOf a main_folder d⟩
  · have hokf : (walkDir a main_folder d).2.2 = false := by simpa using hok
    rw [run_some_err hokf]
    exact ⟨_, rfl, walkDir_filesOf a main_folder d⟩

/-- Claim C2: when `../data/work` exists (and the run reaches the
work-directory phase, here guaranteed by well-formedness and removability),
every regular file directly inside it is deleted regardless of its name —
the final work directory holds no files — while its subdirectory entries
all survive with their names intact; the guarded loop never descends into
them (`workLoop` recurses over names only and skips every non-file). -/
theorem claim_C2_work_dir_cleanup (a : String) (d c0 : DirT)
    (hw : WfDir d) (ha : AllRemovableDir d)
    (hc0 : d.subsOf.lookup "work" = some c0) :
    ∃ d', (run a (some d)).1 = some d' ∧ (run a (some d)).2.2 = true ∧
      ∃ wd', d'.subsOf.lookup "work" = some wd' ∧
        wd'.filesOf = [] ∧ wd'.subsOf.names = c0.subsOf.names := by
  have hchar := walkDir_char a d main_folder hw ha
  have hlkc : (cleanDir a d).subsOf.lookup "work" =
      some (DirT.mk c0.filesOf (cleanDir a c0).subsOf) := by
    rw [cleanDir_subsOf, lookup_cleanSubs, hc0]
    simp [matchesTestcase_work]
  have hlk' : (walkDir a main_folder d).1.subsOf.lookup "work" =
      some (DirT.mk c0.filesOf (cleanDir a c0).subsOf) := by
    rw [hchar.1]; exact hlkc
  have hwc0 : WfDir c0 := WfSubs_lookup (WfDir_subs hw) hc0
  have hac0 : AllRemovableDir c0 := AllRemovableSubs_lookup (AllRemovableDir_subs ha) hc0
  have hnd : (listdir (DirT.mk c0.filesOf (cleanDir a c0).subsOf)).Nodup := by
    rw [listdir_eq]
    show ((c0.filesOf.map (fun f => f.name)) ++ (cleanDir a c0).subsOf.names).Nodup
    rw [cleanDir_subsOf, cleanSubs_names]
    have := WfDir_listdir hwc0
    rw [listdir_eq] at this
    exact this
  have hwlc := workLoop_char work_dir (listdir (DirT.mk c0.filesOf (cleanDir a c0).subsOf))
    (DirT.mk c0.filesOf (cleanDir a c0).subsOf).filesOf hnd (map_name_nodup_of_listdir hnd)
  have hempty : (workLoop work_dir (listdir (DirT.mk c0.filesOf (cleanDir a c0).subsOf))
      (DirT.mk c0.filesOf (cleanDir a c0).subsOf).filesOf).1 = [] := by
    rw [hwlc]
    dsimp only
    rw [List.filter_eq_nil_iff]
    intro f hf
    have hrem : f.removable = true := by
      apply AllRemovableDir_files hac0
      exact hf
    have hmem : f.name ∈ listdir (DirT.mk c0.filesOf (cleanDir a c0).subsOf) :=
      List.mem_append_left _ (List.mem_map_of_mem (fun f => f.name) hf)
    simp [hrem, hmem]
  rw [run_some_work hchar.2 hlk']
  refine ⟨_, rfl, rfl, ?_⟩
  refine ⟨DirT.mk (workLoop work_dir
      (listdir (DirT.mk c0.filesOf (cleanDir a c0).subsOf))
      (DirT.mk c0.filesOf (cleanDir a c0).subsOf).filesOf).1
      (DirT.mk c0.filesOf (cleanDir a c0).subsOf).subsOf, ?_, ?_, ?_⟩
  · exact lookup_set_some _ hlk'
  · show (workLoop work_dir (listdir (DirT.mk c0.filesOf (cleanDir a c0).subsOf))
      (DirT.mk c0.filesOf (cleanDir a c0).subsOf).filesOf).1 = []
    exact hempty
  · show (cleanDir a c0).subsOf.names = c0.subsOf.names
    rw [cleanDir_subsOf, cleanSubs_names]

theorem claim_C2_witness :
    WfDir (DirT.mk []
      (SubDirs.cons "work" (DirT.mk [⟨"anything.bin", true, ""⟩]
        (SubDirs.cons "sub" (DirT.mk [⟨"keep", true, ""⟩] SubDirs.nil) SubDirs.nil))
        SubDirs.nil)) ∧
    ((DirT.mk []
      (SubDirs.cons "work" (DirT.mk [⟨"anything.bin", true, ""⟩]
        (SubDirs.cons "sub" (DirT.mk [⟨"keep", true, ""⟩] SubDirs.nil) SubDirs.nil))
        SubDirs.nil)).subsOf.lookup "work" =
      some (DirT.mk [⟨"anything.bin", true, ""⟩]
        (SubDirs.cons "sub" (DirT.mk [⟨"keep", true, ""⟩] SubDirs.nil) SubDirs.nil))) ∧
    (∃ d', (run "n" (some (DirT.mk []
      (SubDirs.cons "work" (DirT.mk [⟨"anything.bin", true, ""⟩]
        (SubDirs.cons "sub" (DirT.mk [⟨"keep", true, ""⟩] SubDirs.nil) SubDirs.nil))
        SubDirs.nil)))).1 = some d' ∧
      (run "n" (some (DirT.mk []
      (SubDirs.cons "work" (DirT.mk [⟨"anything.bin", true, ""⟩]
        (SubDirs.cons "sub" (DirT.mk [⟨"keep", true, ""⟩] SubDirs.nil) SubDirs.nil))
        SubDirs.nil)))).2.2 = true ∧
      ∃ wd', d'.subsOf.lookup "work" = some wd' ∧ wd'.filesOf = [] ∧
        wd'.subsOf.names = (SubDirs.cons "sub" (DirT.mk [⟨"keep", true, ""⟩]
          SubDirs.nil) SubDirs.nil).names) :=
  ⟨by simp [WfDir, WfSubs]; decide, by decide,
   claim_C2_work_dir_cleanup "n"
     (DirT.mk []
      (SubDirs.cons "work" (DirT.mk [⟨"anything.bin", true, ""⟩]
        (SubDirs.cons "sub" (DirT.mk [⟨"keep", true, ""⟩] SubDirs.nil) SubDirs.nil))
        SubDirs.nil))
     (DirT.mk [⟨"anything.bin", true, ""⟩]
        (SubDirs.cons "sub" (DirT.mk [⟨"keep", true, ""⟩] SubDirs.nil) SubDirs.nil))
     (by simp [WfDir, WfSubs]; decide)
     (by simp [AllRemovableDir, AllRemovableSubs]) (by decide)⟩

/-- Claim C3: two-tier error handling.  First: the work-directory phase is
individually guarded — over a directory listing, every listed regular file
is attempted (a failure on one file is caught and reported with its reason
`f.err`, and later files are still processed and removed), and the loop
itself never signals an error.  Second: an exception during the tree-walk
phase propagates — the whole run ends abnormally with only the walk's
events (no work-directory phase), and third: the walk stops at the failing
child, leaving the remaining directories unprocessed. -/
theorem claim_C3_guarded_vs_unguarded :
    (∀ (dirpath : String) (files : List FileE) (ds : List String),
      ((files.map fun f => f.name) ++ ds).Nodup →
      workLoop dirpath (files.map (fun f => f.name) ++ ds) files =
        (files.filter (fun f => !f.removable),
         files.flatMap (workEvents dirpath))) ∧
    (∀ (answer : String) (d : DirT), (walkDir answer main_folder d).2.2 = false →
      run answer (some d) =
        (some (walkDir answer main_folder d).1,
         Event.print promptLine :: (walkDir answer main_folder d).2.1, false)) ∧
    (∀ (answer dirpath n : String) (c : DirT) (rest : SubDirs),
      (walkDir answer (joinPath dirpath n) c).2.2 = false →
      walkSubs answer dirpath (.cons n c rest) =
        (.cons n (walkDir answer (joinPath dirpath n) c).1 rest,
         (walkDir answer (joinPath dirpath n) c).2.1, false)) := by
  refine ⟨fun dirpath files ds h => workLoop_listdir_char dirpath files ds h,
    fun answer d h => run_some_err h, ?_⟩
  intro answer dirpath n c rest h
  simp [walkSubs, h]

theorem claim_C3_witness :
    (((([⟨"ok.bin", true, ""⟩, ⟨"locked.bin", false, "Permission denied"⟩,
        ⟨"later.bin", true, ""⟩] : List FileE).map fun f => f.name) ++
        ["sub"]).Nodup ∧
     workLoop work_dir ((([⟨"ok.bin", true, ""⟩,
        ⟨"locked.bin", false, "Permission denied"⟩,
        ⟨"later.bin", true, ""⟩] : List FileE).map (fun f => f.name)) ++ ["sub"])
        [⟨"ok.bin", true, ""⟩, ⟨"locked.bin", false, "Permission denied"⟩,
         ⟨"later.bin", true, ""⟩] =
      (([⟨"ok.bin", true, ""⟩, ⟨"locked.bin", false, "Permission denied"⟩,
         ⟨"later.bin", true, ""⟩] : List FileE).filter (fun f => !f.removable),
       ([⟨"ok.bin", true, ""⟩, ⟨"locked.bin", false, "Permission denied"⟩,
         ⟨"later.bin", true, ""⟩] : List FileE).flatMap (workEvents work_dir))) ∧
    ((walkDir "n" main_folder (DirT.mk []
        (SubDirs.cons "testcase1" (DirT.mk [⟨"log_a", false, "Permission denied"⟩]
          SubDirs.nil)
        (SubDirs.cons "work" (DirT.mk [⟨"x", true, ""⟩] SubDirs.nil)
          SubDirs.nil)))).2.2 = false ∧
     run "n" (some (DirT.mk []
        (SubDirs.cons "testcase1" (DirT.mk [⟨"log_a", false, "Permission denied"⟩]
          SubDirs.nil)
        (SubDirs.cons "work" (DirT.mk [⟨"x", true, ""⟩] SubDirs.nil)
          SubDirs.nil)))) =
      (some (walkDir "n" main_folder (DirT.mk []
        (SubDirs.cons "testcase1" (DirT.mk [⟨"log_a", false, "Permission denied"⟩]
          SubDirs.nil)
        (SubDirs.cons "work" (DirT.mk [⟨"x", true, ""⟩] SubDirs.nil)
          SubDirs.nil)))).1,
       Event.print promptLine :: (walkDir "n" main_folder (DirT.mk []
        (SubDirs.cons "testcase1" (DirT.mk [⟨"log_a", false, "Permission denied"⟩]
          SubDirs.nil)
        (SubDirs.cons "work" (DirT.mk [⟨"x", true, ""⟩] SubDirs.nil)
          SubDirs.nil)))).2.1, false)) :=
  ⟨⟨by decide, claim_C3_guarded_vs_unguarded.1 work_dir _ ["sub"] (by decide)⟩,
   ⟨by decide, claim_C3_guarded_vs_unguarded.2.1 "n" _ (by decide)⟩⟩

/-- Claim C6: deletion rules only ever fire inside directories whose base
name matches `testcase*`.  First: the files of any directory reached by a
path ending in a non-matching name are preserved by the whole tree-walk
phase, even when the walk aborts early.  Second: the walk descends into
every subdirectory regardless of match — a matched directory at any depth,
under arbitrary (also non-matching) ancestors, ends up with exactly its
non-targeted files (stated for a well-formed, fully removable tree). -/
theorem claim_C6_testcase_only :
    (∀ (a q : String) (d : DirT) (p : List String) (n : String),
      matchesTestcase n = false →
      filesAt (walkDir a q d).1 (p ++ [n]) = filesAt d (p ++ [n])) ∧
    (∀ (a q : String) (d : DirT) (p : List String) (n : String),
      WfDir d → AllRemovableDir d → matchesTestcase n = true →
      filesAt (walkDir a q d).1 (p ++ [n]) =
        (filesAt d (p ++ [n])).map
          (fun fs => fs.filter (fun f => !(shouldDelete a f.name)))) := by
  refine ⟨fun a q d p n h => walkDir_files_unmatched a d q p n h, ?_⟩
  intro a q d p n hw ha hm
  rw [filesAt, (walkDir_char a d q hw ha).1]
  cases hd : dirAt d (p ++ [n]) with
  | none =>
    rw [dirAt_cleanDir_none a _ d hd]
    rw [filesAt, hd]
    rfl
  | some c =>
    rw [dirAt_cleanDir_some a p n d c hd]
    rw [filesAt, hd]
    simp [hm, DirT.filesOf]

theorem claim_C6_witness :
    (matchesTestcase "alpha" = false ∧
     filesAt (walkDir "n" main_folder (DirT.mk []
        (SubDirs.cons "alpha" (DirT.mk [⟨"log_keep", true, ""⟩] SubDirs.nil)
          SubDirs.nil))).1 (([] : List String) ++ ["alpha"]) =
       filesAt (DirT.mk []
        (SubDirs.cons "alpha" (DirT.mk [⟨"log_keep", true, ""⟩] SubDirs.nil)
          SubDirs.nil)) (([] : List String) ++ ["alpha"])) ∧
    (WfDir (DirT.mk []
        (SubDirs.cons "alpha" (DirT.mk []
          (SubDirs.cons "testcase9" (DirT.mk [⟨"output_c.bin", true, ""⟩,
            ⟨"keep.txt", true, ""⟩] SubDirs.nil) SubDirs.nil)) SubDirs.nil)) ∧
     matchesTestcase "testcase9" = true ∧
     filesAt (walkDir "n" main_folder (DirT.mk []
        (SubDirs.cons "alpha" (DirT.mk []
          (SubDirs.cons "testcase9" (DirT.mk [⟨"output_c.bin", true, ""⟩,
            ⟨"keep.txt", true, ""⟩] SubDirs.nil) SubDirs.nil)) SubDirs.nil))).1
        (["alpha"] ++ ["testcase9"]) =
       (filesAt (DirT.mk []
        (SubDirs.cons "alpha" (DirT.mk []
          (SubDirs.cons "testcase9" (DirT.mk [⟨"output_c.bin", true, ""⟩,
            ⟨"keep.txt", true, ""⟩] SubDirs.nil) SubDirs.nil)) SubDirs.nil))
        (["alpha"] ++ ["testcase9"])).map
          (fun fs => fs.filter (fun f => !(shouldDelete "n" f.name)))) :=
  ⟨⟨by decide, claim_C6_testcase_only.1 "n" main_folder _ [] "alpha" (by decide)⟩,
   ⟨by simp [WfDir, WfSubs]; decide, by decide,
    claim_C6_testcase_only.2 "n" main_folder _ ["alpha"] "testcase9"
      (by simp [WfDir, WfSubs]; decide)
      (by simp [AllRemovableDir, AllRemovableSubs]) (by decide)⟩⟩

/-- Claim C9, counterexample: it is not the case that every deletion is
announced by a console line naming the file printed before the removal.
In the work-directory phase the script removes first and prints after
(lines 52-53): on a state whose work directory holds one file, the only
removal in the trace is preceded by no line naming it. -/
theorem claim_C9_counterexample :
    ¬ (∀ pre q suf,
        (run "n" (some (DirT.mk []
          (SubDirs.cons "work" (DirT.mk [⟨"a.txt", true, ""⟩] SubDirs.nil)
            SubDirs.nil)))).2.1 = pre ++ Event.remove q :: suf →
        ∃ s, Event.print s ∈ pre ∧
          (s = "Deleting file: " ++ q ∨ s = "Deleted file: '" ++ q ++ "'")) := by
  intro h
  obtain ⟨s, hs, hnm⟩ := h [Event.print promptLine] "../data/work/a.txt"
    [Event.print "Deleted file: '../data/work/a.txt'"] (by decide)
  have hsp : s = promptLine := by
    have := List.mem_singleton.mp hs
    exact Event.print.inj this
  rw [hsp] at hnm
  rcases hnm with h1 | h1
  · exact absurd h1 (by decide)
  · exact absurd h1 (by decide)

/-- Claim C9, amended: for every file the program deletes, a console line
naming that file is printed adjacent to the removal — immediately before it
in the tree-walk phase (`Deleting file:`), immediately after it in the
work-directory phase (`Deleted file:`). -/
theorem claim_C9_amended (a : String) (fs : Option DirT) :
    adjacentNaming (run a fs).2.1 :=
  run_adjacent a fs
